import Mathlib

/-!
# cdnscan: the path tree, the static-resource test and the CSV report

A shallow embedding of `cdnscan.go`.

Go pointers to `PathSize` become addresses into a store (the list of all
allocated `PathSize` objects, in allocation order).  Two entries of a
`subpaths` slice that hold the same pointer hold the same address, so an
update made through one is seen through the other, as in the Go program.
A dereference of an address that is not in the store is a fault (`none`),
the counterpart of Go's nil dereference.

`uint64` arithmetic is arithmetic on `Nat` modulo `2 ^ 64`; `int` is the
64-bit `int`.  Go strings are Lean strings: the program cuts them only at the
ASCII characters `/`, `.` and `|`, where bytes and characters agree.  The CSV
writer is the list of records handed to it, in order.
-/

namespace CdnScan

/-- One line of the Apache log (`type Line struct`).  `Time` carries the text
handed to `time.Parse`; no property below depends on the parsed value. -/
structure Line where
  RemoteHost : String
  Time : String
  Request : String
  Protocol : String
  Status : Int
  Bytes : Int
  Referer : String
  UserAgent : String
  URL : String
deriving DecidableEq, Repr

/-- A node of the path tree (`type PathSize struct`).  `subpaths` holds the
addresses of the children, in slice order. -/
structure PathSize where
  subpaths : List Nat
  pathnode : String
  lastbytes : Nat
  totalbytes : Nat
  totalhits : Nat
deriving DecidableEq, Repr

/-- The heap of `PathSize` objects: address `a` is the `a`-th allocation. -/
abbrev Store := List PathSize

/-- The modulus of `uint64`. -/
def u64 : Nat := 2 ^ 64

/-- Write through a pointer: replace the object at `a` by `f` of it.
Faults when `a` is not allocated. -/
def Store.modify (s : Store) (a : Nat) (f : PathSize → PathSize) : Option Store :=
  match s[a]? with
  | none => none
  | some ps => some (s.set a (f ps))

/-- Embedding of `PathSizeFactory(parent, pathname)`: allocate a zeroed node named
`pathname`; when `parent` is not nil, append the new pointer to the parent's
`subpaths`.  Returns the new store and the new pointer. -/
def PathSizeFactory (parent : Option Nat) (pathname : String) (s : Store) :
    Option (Store × Nat) :=
  let newps := s.length
  let s1 : Store := s ++ [{ subpaths := [], pathnode := pathname,
                            lastbytes := 0, totalbytes := 0, totalhits := 0 }]
  match parent with
  | none => some (s1, newps)
  | some p =>
    match s1.modify p (fun par => { par with subpaths := par.subpaths ++ [newps] }) with
    | none => none
    | some s2 => some (s2, newps)

/-- The search loop of `InsertIntoTree`: the first entry of the `subpaths`
slice whose node is named `name`.  `some none` when the loop runs off the end
of the slice; `none` when an entry cannot be dereferenced. -/
def findSubpath (s : Store) (name : String) : List Nat → Option (Option Nat)
  | [] => some none
  | c :: cs =>
    match s[c]? with
    | none => none
    | some ch => if ch.pathnode = name then some (some c) else findSubpath s name cs

/-- Embedding of `InsertIntoTree(parts, pathtree, bytes)`: skip an empty first
part; otherwise search the `subpaths` of `pathtree` for the first part.  When
a child is found the counters of `pathtree` are updated and the call descends
into the child; when none is found a new child is made by `PathSizeFactory`
(which appends it to `pathtree.subpaths`), it gets `totalbytes = bytes` and
`totalhits = 1`, it is appended to `pathtree.subpaths` and the call descends
into it. -/
def InsertIntoTree : List String → Nat → Nat → Store → Option Store
  | [], _, _, s => some s
  | part :: rest, pathtree, bytes, s =>
    if part = "" then InsertIntoTree rest pathtree bytes s
    else
      match s[pathtree]? with
      | none => none
      | some pt =>
        match findSubpath s part pt.subpaths with
        | none => none
        | some (some child) =>
          -- found: the counters of `pathtree` itself are updated, then descend
          let s1 := s.set pathtree
            { pt with totalbytes := (pt.totalbytes + bytes) % u64,
                      lastbytes := bytes,
                      totalhits := (pt.totalhits + 1) % u64 }
          InsertIntoTree rest child bytes s1
        | some none =>
          -- not found: the factory already appends the new node to the parent
          match PathSizeFactory (some pathtree) part s with
          | none => none
          | some (s1, newps) =>
            match s1.modify newps (fun n => { n with totalbytes := bytes, totalhits := 1 }) with
            | none => none
            | some s2 =>
              -- second append of the same pointer
              match s2.modify pathtree (fun p => { p with subpaths := p.subpaths ++ [newps] }) with
              | none => none
              | some s3 => InsertIntoTree rest newps bytes s3

/-- The root made by `main`: `PathSizeFactory(nil, "/")` on an empty heap. -/
def freshRoot : Store :=
  [{ subpaths := [], pathnode := "/", lastbytes := 0, totalbytes := 0, totalhits := 0 }]

/-! ## Strings -/

/-- Cut a character list at every `sep`: the pieces between separators, so
`n` separators give `n + 1` pieces and the empty list gives one empty piece. -/
def splitChars (sep : Char) : List Char → List (List Char)
  | [] => [[]]
  | c :: cs =>
    if c = sep then [] :: splitChars sep cs
    else
      match splitChars sep cs with
      | [] => [[c]]
      | w :: ws => (c :: w) :: ws

/-- Embedding of `strings.Split(s, sep)` for a one-character separator, the only way the
program calls it (`"/"` and `"."`). -/
def Split (s : String) (sep : Char) : List String :=
  (splitChars sep s.data).map String.mk

/-- Substring test on character lists: `needle` starts at some position of
`hay`. -/
def containsChars (needle : List Char) : List Char → Bool
  | [] => needle.isPrefixOf []
  | c :: cs => needle.isPrefixOf (c :: cs) || containsChars needle cs

/-- Embedding of `strings.Contains(s, substr)`. -/
def Contains (s substr : String) : Bool :=
  containsChars substr.data s.data

/-- The value of a decimal digit, `none` for any other character. -/
def digitVal (c : Char) : Option Nat :=
  if 48 ≤ c.toNat ∧ c.toNat ≤ 57 then some (c.toNat - 48) else none

/-- Read a run of decimal digits, most significant first, onto `acc`. -/
def parseDigits : List Char → Nat → Option Nat
  | [], acc => some acc
  | c :: cs, acc =>
    match digitVal c with
    | none => none
    | some d => parseDigits cs (acc * 10 + d)

/-- Embedding of `strconv.Atoi` for a 64-bit `int`: an optional sign, then one or more
decimal digits, the value within the `int` range; `none` is a non-nil `err`. -/
def Atoi (s : String) : Option Int :=
  match s.data with
  | [] => none
  | c :: cs =>
    if c = '-' then
      match cs with
      | [] => none
      | _ => (parseDigits cs 0).bind fun n => if n ≤ 2 ^ 63 then some (-(n : Int)) else none
    else if c = '+' then
      match cs with
      | [] => none
      | _ => (parseDigits cs 0).bind fun n => if n < 2 ^ 63 then some (n : Int) else none
    else (parseDigits (c :: cs) 0).bind fun n => if n < 2 ^ 63 then some (n : Int) else none

/-- The conversion `uint64(x)` of an `int`. -/
def toUint64 (x : Int) : Nat := (x % (2 ^ 64 : Int)).toNat

/-! ## The log-line parser -/

/-- Embedding of `parseApacheLog(regex, inpline)`.  The compiled pattern is represented by
its `FindStringSubmatch`: the list of captures (whole match first), empty
(nil) when the line does not match.  Indexing the captures out of range is a
run-time panic, `none`. -/
def parseApacheLog (regex : String → List String) (inpline : String) : Option Line :=
  let result := regex inpline
  match result[1]?, result[2]?, result[3]?, result[4]?, result[6]?, result[5]?,
        result[7]?, result[8]?, result[9]?, result[10]? with
  | some host, some value, some request, some url0, some altURL, some protocol,
    some r7, some r8, some referer, some agent =>
    let url := if url0 = "" ∧ altURL ≠ "" then altURL else url0
    let status : Int := match Atoi r7 with
      | none => 0
      | some v => v
    let bytes : Int := match Atoi r8 with
      | none => 0
      | some v => v
    some { RemoteHost := host, Time := value, Request := request, Protocol := protocol,
           Status := status, Bytes := bytes, Referer := referer, UserAgent := agent,
           URL := url }
  | _, _, _, _, _, _, _, _, _, _ => none

/-! ## The static-resource test -/

/-- Embedding of `IsStaticResource(apalog)`. -/
def IsStaticResource (apalog : Line) : Bool :=
  let pathparts := Split apalog.URL '/'
  let idx := pathparts.length
  if idx > 0 then
    match pathparts[idx - 1]? with
    | none => false
    | some lastitem =>
      if lastitem.length > 0 then
        let nameparts := Split lastitem '.'
        if nameparts.length > 0 then
          match nameparts[nameparts.length - 1]? with
          | none => false
          | some last =>
            let extension := "|" ++ last ++ "|"
            if Contains "|js|jpg|png|gif|css|json|" extension then true else false
        else false
      else false
  else false

/-! ## The scanner -/

/-- The body of the scan loop once the line is parsed: insert the record's
path when the status is 200 and the resource is static. -/
def scanStep (apalog : Line) (pathtree : Nat) (s : Store) : Option Store :=
  if apalog.Status = 200 then
    if IsStaticResource apalog then
      InsertIntoTree (Split apalog.URL '/') pathtree (toUint64 apalog.Bytes) s
    else some s
  else some s

/-- Embedding of `ScanLogIntoTree` over the lines of the file; a panic in the parser ends
the scan. -/
def ScanLogIntoTree (regex : String → List String) : List String → Nat → Store → Option Store
  | [], _, s => some s
  | inpline :: more, pathtree, s =>
    match parseApacheLog regex inpline with
    | none => none
    | some apalog =>
      match scanStep apalog pathtree s with
      | none => none
      | some s1 => ScanLogIntoTree regex more pathtree s1

/-! ## The report -/

/-- Embedding of `PrintCSVHeaders`: the header row handed to the CSV writer. -/
def PrintCSVHeaders : List String := ["Size", "Path", "File", "Hits"]

/-- Embedding of `PrintCSVRow`: the record handed to the CSV writer for one node. -/
def PrintCSVRow (path : String) (ps : PathSize) : List String :=
  [Nat.repr ps.totalbytes, path, ps.pathnode, Nat.repr ps.totalhits]

/-- The `range ps.subpaths` loop of `TraverseAndPrint`, with the recursive
call as `visit`: the rows written for each entry, in slice order. -/
def traverseSubpaths (visit : String → Option Nat → Option (List (List String)))
    (s : Store) (path : String) : List Nat → Option (List (List String))
  | [] => some []
  | sps :: more =>
    match s[sps]? with
    | none => none
    | some child =>
      match visit (path ++ "/" ++ child.pathnode) (some sps) with
      | none => none
      | some rows =>
        match traverseSubpaths visit s path more with
        | none => none
        | some rest => some (rows ++ rest)

/-- Embedding of `TraverseAndPrint(w, path, ps)`: the rows written, in order.  The first
argument bounds the recursion depth; `none` when it is used up or a pointer
cannot be dereferenced. -/
def TraverseAndPrint : Nat → Store → String → Option Nat → Option (List (List String))
  | _, _, _, none => some []
  | 0, _, _, some _ => none
  | fuel + 1, s, path, some a =>
    match s[a]? with
    | none => none
    | some ps =>
      match traverseSubpaths (TraverseAndPrint fuel s) s path ps.subpaths with
      | none => none
      | some rows => some (PrintCSVRow path ps :: rows)

/-- Embedding of `PrintTreeCSV(w, head)`: the header, then the traversal from
`head` with the empty path. -/
def PrintTreeCSV (fuel : Nat) (s : Store) (head : Option Nat) : Option (List (List String)) :=
  match TraverseAndPrint fuel s "" head with
  | none => none
  | some rows => some (PrintCSVHeaders :: rows)

/-! ## Vocabulary of the properties -/

/-- A sequence of `InsertIntoTree` calls on the same root, in order. -/
def insertAll : List (List String × Nat) → Nat → Store → Option Store
  | [], _, s => some s
  | (parts, bytes) :: more, pathtree, s =>
    match InsertIntoTree parts pathtree bytes s with
    | none => none
    | some s1 => insertAll more pathtree s1

/-- The node reached from `a` along the segment names `segs`, taking at each
level the first child with that name. -/
def nodeAt (s : Store) : Nat → List String → Option Nat
  | a, [] => if a < s.length then some a else none
  | a, seg :: more =>
    match s[a]? with
    | none => none
    | some ps =>
      match findSubpath s seg ps.subpaths with
      | some (some c) => nodeAt s c more
      | _ => none

/-- The names of the entries of the `subpaths` slice of node `a`, in order. -/
def childNames (s : Store) (a : Nat) : List String :=
  match s[a]? with
  | none => []
  | some ps => ps.subpaths.filterMap fun c => (s[c]?).map PathSize.pathnode

/-- The non-empty segments of a path. -/
def segments (parts : List String) : List String :=
  parts.filter fun p => p ≠ ""

/-- Sum of the byte counts of the insertions whose path of non-empty
segments passes through or ends at the node with segment path `q`. -/
def claimedBytes (ins : List (List String × Nat)) (q : List String) : Nat :=
  ((ins.filter fun i => q.isPrefixOf (segments i.1)).map Prod.snd).sum

/-- Number of the insertions whose path of non-empty segments passes through
or ends at the node with segment path `q`. -/
def claimedHits (ins : List (List String × Nat)) (q : List String) : Nat :=
  (ins.filter fun i => q.isPrefixOf (segments i.1)).length

/-- A record with the given URL, status and byte count, the other fields
empty. -/
def request (url : String) (status bytes : Int) : Line :=
  { RemoteHost := "", Time := "", Request := "", Protocol := "", Status := status,
    Bytes := bytes, Referer := "", UserAgent := "", URL := url }

/-- A tree of nodes as the report sees it: a name, the two counters that are
printed, and the children in stored order. -/
inductive PathTree where
  | node (pathnode : String) (totalbytes totalhits : Nat) (children : List PathTree)

/-- The segment name of the top node. -/
def PathTree.name : PathTree → String
  | .node n _ _ _ => n

mutual
/-- Number of nodes of a tree. -/
def PathTree.size : PathTree → Nat
  | .node _ _ _ kids => 1 + PathTree.sizeList kids
/-- Number of nodes of a list of trees. -/
def PathTree.sizeList : List PathTree → Nat
  | [] => 0
  | k :: ks => PathTree.size k + PathTree.sizeList ks
end

mutual
/-- The data rows of the report for a tree whose top node has the given
`Path`: the node's row, then the rows of each child in stored order, a child's
`Path` being this `Path`, a slash and the child's name. -/
def preorderRows (path : String) : PathTree → List (List String)
  | .node n b h kids => [Nat.repr b, path, n, Nat.repr h] :: preorderRowsList path kids
/-- The rows of a list of children of a node with the given `Path`. -/
def preorderRowsList (path : String) : List PathTree → List (List String)
  | [] => []
  | k :: ks => preorderRows (path ++ "/" ++ k.name) k ++ preorderRowsList path ks
end

/-- Read the trees at a list of pointers with `visit`. -/
def treeAtList (visit : Nat → Option PathTree) : List Nat → Option (List PathTree)
  | [] => some []
  | c :: cs =>
    match visit c with
    | none => none
    | some t =>
      match treeAtList visit cs with
      | none => none
      | some ts => some (t :: ts)

/-- The tree that the pointer structure below address `a` unfolds to, when it
has depth at most the first argument: each entry of a `subpaths` slice is a
child, in slice order. -/
def treeAt : Nat → Store → Nat → Option PathTree
  | 0, _, _ => none
  | n + 1, s, a =>
    match s[a]? with
    | none => none
    | some ps =>
      match treeAtList (treeAt n s) ps.subpaths with
      | none => none
      | some kids => some (.node ps.pathnode ps.totalbytes ps.totalhits kids)

/-- The text after the last `sep` of a character list, the whole list when
`sep` does not occur. -/
def afterLast (sep : Char) (l : List Char) : List Char :=
  (l.reverse.takeWhile fun c => c ≠ sep).reverse

/-- The final `/`-separated segment of a URL: the text after its last `/`
(empty when the URL ends in `/`). -/
def finalSegment (url : String) : String :=
  String.mk (afterLast '/' url.data)

/-- The text after the last `.` of a segment. -/
def extensionOf (seg : String) : String :=
  String.mk (afterLast '.' seg.data)

/-- The extensions of static resources. -/
def staticExtensions : List String := ["js", "jpg", "png", "gif", "css", "json"]

/-- The static test in the words of the specification: take the final
non-empty segment of the URL split on `/`; false when it has no `.`;
otherwise true exactly when the text after its last `.` is in the list. -/
def specIsStatic (url : String) : Bool :=
  match ((Split url '/').filter fun seg => seg ≠ "").getLast? with
  | none => false
  | some seg => seg.data.contains '.' && staticExtensions.contains (extensionOf seg)

/-- The words `ws`, each preceded by a bar, and a closing bar. -/
def barred : List (List Char) → List Char
  | [] => ['|']
  | w :: ws => '|' :: (w ++ barred ws)

/-- Every pointer held in a `subpaths` slice is allocated. -/
def wellFormed (s : Store) : Bool :=
  s.all fun node => node.subpaths.all fun c => decide (c < s.length)

/-- The update that the found branch of `InsertIntoTree` makes to `pathtree`:
add the bytes, record them as the last bytes, count one hit. -/
def credit (bytes : Nat) (pt : PathSize) : PathSize :=
  { pt with totalbytes := (pt.totalbytes + bytes) % u64,
            lastbytes := bytes,
            totalhits := (pt.totalhits + 1) % u64 }

/-- The store that the not-found branch of `InsertIntoTree` leaves before it
descends: the new node, with the bytes and one hit, at the next free address,
and its pointer twice at the end of the `subpaths` of `pathtree`. -/
def withNewChild (s : Store) (pathtree : Nat) (pt : PathSize) (part : String) (bytes : Nat) :
    Store :=
  s.set pathtree { pt with subpaths := pt.subpaths ++ [s.length, s.length] } ++
    [{ subpaths := [], pathnode := part, lastbytes := 0, totalbytes := bytes, totalhits := 1 }]

/-- The store `s'` keeps every node of `s` at its address, with its name, and
with its `subpaths` extended at the end only. -/
def grows (s s' : Store) : Prop :=
  s.length ≤ s'.length ∧
    ∀ (a : Nat) (node : PathSize), s[a]? = some node →
      ∃ node' : PathSize, s'[a]? = some node' ∧ node'.pathnode = node.pathnode ∧
        node.subpaths <+: node'.subpaths

/-- The nodes of a single path from address `i` on: the node at `i` is named
`name`; when segments remain it holds the next address twice and the counters
`L`, `Bm`, `Hm`, and the rest follows; the last node has no children, no last
bytes, `b1` bytes and one hit. -/
def chainTail (L Bm Hm b1 : Nat) : Nat → String → List String → List PathSize
  | _, name, [] =>
    [{ subpaths := [], pathnode := name, lastbytes := 0, totalbytes := b1, totalhits := 1 }]
  | i, name, x :: rest =>
    { subpaths := [i + 1, i + 1], pathnode := name, lastbytes := L, totalbytes := Bm,
      totalhits := Hm } :: chainTail L Bm Hm b1 (i + 1) x rest

/-- The store that holds the single path `x :: rest` below the root: the root
with counters `L`, `Br`, `Hr` at address 0, then the nodes of the path. -/
def chainStore (L Br Hr Bm Hm b1 : Nat) (x : String) (rest : List String) : Store :=
  { subpaths := [1, 1], pathnode := "/", lastbytes := L, totalbytes := Br, totalhits := Hr } ::
    chainTail L Bm Hm b1 1 x rest

/-! ## The log pattern

A model of the part of Go's `regexp` package that the program uses: patterns
built from character classes, anchors, concatenation, alternation, greedy
repetition and capture groups, matched leftmost-first (the first match a
backtracking search finds, earlier alternatives and longer repetitions
first), which is the match `FindStringSubmatch` returns. -/

/-- A compiled pattern. -/
inductive Regexp where
  | empty : Regexp
  | char (p : Char → Bool) : Regexp
  | bol : Regexp
  | eol : Regexp
  | cat (a b : Regexp) : Regexp
  | alt (a b : Regexp) : Regexp
  | star (a : Regexp) : Regexp
  | group (i : Nat) (a : Regexp) : Regexp

/-- One or more, greedy (`a+`). -/
def Regexp.plus (a : Regexp) : Regexp := .cat a (.star a)

/-- Zero or one, greedy (`a?`). -/
def Regexp.opt (a : Regexp) : Regexp := .alt a .empty

/-- A literal character. -/
def Regexp.lit (c : Char) : Regexp := .char fun d => d = c

/-- The concatenation of a list of patterns. -/
def Regexp.seq : List Regexp → Regexp
  | [] => .empty
  | [a] => a
  | a :: as => .cat a (Regexp.seq as)

/-- The state of a match attempt: the position in the text, the text from
there on, and the text of each capture group set so far. -/
structure MatchState where
  pos : Nat
  rest : List Char
  caps : List (Option (List Char))

/-- The result of a match attempt; `fuelOut` when the depth bound is used
up. -/
inductive Outcome where
  | fuelOut : Outcome
  | noMatch : Outcome
  | matched (st : MatchState) : Outcome

/-- Match `re` at the state `st` and go on with `k`; the first argument bounds
the depth of the search.  An alternation tries its left side first, a
repetition tries one more round first, and a round that consumes nothing
ends the repetition. -/
def matchAt : Nat → Regexp → MatchState → (MatchState → Outcome) → Outcome
  | 0, _, _, _ => .fuelOut
  | _ + 1, .empty, st, k => k st
  | _ + 1, .char p, st, k =>
    match st.rest with
    | [] => .noMatch
    | c :: cs => if p c then k { st with pos := st.pos + 1, rest := cs } else .noMatch
  | _ + 1, .bol, st, k => if st.pos = 0 then k st else .noMatch
  | _ + 1, .eol, st, k => if st.rest = [] then k st else .noMatch
  | f + 1, .cat a b, st, k => matchAt f a st fun st1 => matchAt f b st1 k
  | f + 1, .alt a b, st, k =>
    match matchAt f a st k with
    | .noMatch => matchAt f b st k
    | r => r
  | f + 1, .star a, st, k =>
    match matchAt f a st (fun st1 =>
        if st.pos < st1.pos then matchAt f (.star a) st1 k else .noMatch) with
    | .noMatch => k st
    | r => r
  | f + 1, .group i a, st, k =>
    matchAt f a st fun st1 =>
      k { st1 with caps := st1.caps.set i (some (st.rest.take (st1.pos - st.pos))) }

/-- The class `\s` of Go's `regexp`: tab, newline, form feed, carriage return
and space. -/
def isSpace (c : Char) : Bool :=
  c = ' ' || c = '\t' || c = '\n' || c = Char.ofNat 12 || c = '\r'

/-- The pattern `\s`. -/
def spaceRe : Regexp := .char isSpace

/-- The pattern `\S`. -/
def nonSpace : Regexp := .char fun c => !isSpace c

/-- The pattern `[^"]`. -/
def notQuote : Regexp := .char fun c => c ≠ '"'

/-- The pattern `(?:[^"]*(?:\\")?)*`: text without quotes other than quotes
that follow a backslash. -/
def quotedText : Regexp :=
  .star (.cat (.star notQuote) (Regexp.opt (.cat (Regexp.lit '\\') (Regexp.lit '"'))))

/-- Embedding of `CreateApacheRegex`: the pattern that the twelve pieces
written to the buffer spell, piece by piece. -/
def CreateApacheRegex : Regexp :=
  Regexp.seq [
    -- ^(\S+)\s                      1) IP
    .bol, .group 1 nonSpace.plus, spaceRe,
    -- \S+\s+                        remote logname
    nonSpace.plus, spaceRe.plus,
    -- (?:\S+\s+)+                   remote user
    (Regexp.cat nonSpace.plus spaceRe.plus).plus,
    -- \[([^]]+)\]\s                 2) date
    Regexp.lit '[', .group 2 (Regexp.char fun c => c ≠ ']').plus, Regexp.lit ']', spaceRe,
    -- "(\S*)\s?                     3) method
    Regexp.lit '"', .group 3 (.star nonSpace), spaceRe.opt,
    -- (?:((?:[^"]*(?:\\")?)*)\s     4) URL
    -- ([^"]*)"\s|                   5) protocol
    -- ((?:[^"]*(?:\\")?)*)"\s)      6) or, possibly URL with no protocol
    .alt
      (Regexp.seq [.group 4 quotedText, spaceRe, .group 5 (.star notQuote), Regexp.lit '"',
        spaceRe])
      (Regexp.seq [.group 6 quotedText, Regexp.lit '"', spaceRe]),
    -- (\S+)\s                       7) status code
    .group 7 nonSpace.plus, spaceRe,
    -- (\S+)\s                       8) bytes
    .group 8 nonSpace.plus, spaceRe,
    -- "((?:[^"]*(?:\\")?)*)"\s      9) referrer
    Regexp.lit '"', .group 9 quotedText, Regexp.lit '"', spaceRe,
    -- "(.*)"$                       10) user agent
    Regexp.lit '"', .group 10 (.star (.char fun c => c ≠ '\n')), Regexp.lit '"', .eol]

/-- Try the pattern at each start position in turn, leftmost first; group 0
is the whole match. -/
def findFrom (fuel : Nat) (re : Regexp) (ngroups : Nat) : Nat → Nat → List Char → Outcome
  | 0, _, _ => .noMatch
  | n + 1, pos, rest =>
    match matchAt fuel (.group 0 re)
        { pos := pos, rest := rest, caps := List.replicate (ngroups + 1) none }
        Outcome.matched with
    | .noMatch =>
      match rest with
      | [] => .noMatch
      | _ :: cs => findFrom fuel re ngroups n (pos + 1) cs
    | r => r

/-- Embedding of `re.FindStringSubmatch(s)` for a pattern with `ngroups`
capture groups: the text of the leftmost match and of each group (empty for a
group that did not take part), the empty list (nil) when there is no match;
`none` when the depth bound is used up. -/
def FindStringSubmatch (fuel : Nat) (re : Regexp) (ngroups : Nat) (s : String) :
    Option (List String) :=
  match findFrom fuel re ngroups (s.length + 1) 0 s.data with
  | .fuelOut => none
  | .noMatch => some []
  | .matched st => some (st.caps.map fun c =>
      match c with
      | none => ""
      | some cs => String.mk cs)

/-- The log line of the scenario. -/
def logoLine : String :=
  "203.0.113.5 - - [10/Oct/2020:13:55:36 -0700] \"GET /assets/img/logo.png HTTP/1.1\" 200 5120 \"-\" \"curl/7.64\""

/-- The tree that holds the single path `/a/b.js`, inserted once with 100
bytes. -/
def sampleTree : Store :=
  [{ subpaths := [1, 1], pathnode := "/", lastbytes := 0, totalbytes := 0, totalhits := 0 },
   { subpaths := [2, 2], pathnode := "a", lastbytes := 0, totalbytes := 100, totalhits := 1 },
   { subpaths := [], pathnode := "b.js", lastbytes := 0, totalbytes := 100, totalhits := 1 }]

/-! ## Insertion on concrete inputs -/

/-- The fresh root is what `PathSizeFactory(nil, "/")` allocates on an empty
heap, at address 0. -/
theorem PathSizeFactory_nil_root : PathSizeFactory none "/" [] = some (freshRoot, 0) := by
  decide

/-- C1: after inserting `/a/b.js` with 100 bytes and `/a/c.js` with 7 bytes
into a fresh root, the node `/a` holds 100 bytes and 1 hit and the root holds
7 bytes and 1 hit, while both insertions pass through each of them (107 bytes,
2 hits). -/
theorem insert_totals_miss_insertions :
    ∃ s, insertAll [(["", "a", "b.js"], 100), (["", "a", "c.js"], 7)] 0 freshRoot = some s ∧
      nodeAt s 0 ["a"] = some 1 ∧
      (s[1]?).map (fun n => (n.totalbytes, n.totalhits)) = some (100, 1) ∧
      claimedBytes [(["", "a", "b.js"], 100), (["", "a", "c.js"], 7)] ["a"] = 107 ∧
      claimedHits [(["", "a", "b.js"], 100), (["", "a", "c.js"], 7)] ["a"] = 2 ∧
      (s[0]?).map (fun n => (n.totalbytes, n.totalhits)) = some (7, 1) ∧
      claimedBytes [(["", "a", "b.js"], 100), (["", "a", "c.js"], 7)] [] = 107 ∧
      claimedHits [(["", "a", "b.js"], 100), (["", "a", "c.js"], 7)] [] = 2 :=
  ⟨_, rfl, by decide, by decide, by decide, by decide, by decide, by decide, by decide⟩

/-- C2: inserting `/a/b.js` into a fresh root with 100 bytes and again with
200 bytes leaves the leaf `b.js` with totalhits 1, totalbytes 100 and
lastbytes 0, and its report rows read Size 100, Hits 1. -/
theorem insert_twice_leaf_keeps_first :
    ∃ s rows, insertAll [(["", "a", "b.js"], 100), (["", "a", "b.js"], 200)] 0 freshRoot = some s ∧
      nodeAt s 0 ["a", "b.js"] = some 2 ∧
      s[2]? = some { subpaths := [], pathnode := "b.js", lastbytes := 0,
                     totalbytes := 100, totalhits := 1 } ∧
      PrintTreeCSV 3 s (some 0) = some rows ∧
      ["100", "/a/b.js", "b.js", "1"] ∈ rows ∧
      ["300", "/a/b.js", "b.js", "2"] ∉ rows :=
  ⟨_, _, rfl, by decide, by decide, rfl, by decide, by decide⟩

/-- C3: in the tree holding `/a/b.js`, the call that inserts `/a/c.js` with 7
bytes adds 7 bytes and 1 hit to the root but leaves `/a`, the parent of the
new leaf, at 100 bytes and 1 hit. -/
theorem insert_new_leaf_skips_parent :
    ∃ s0 s1, InsertIntoTree ["", "a", "b.js"] 0 100 freshRoot = some s0 ∧
      InsertIntoTree ["", "a", "c.js"] 0 7 s0 = some s1 ∧
      nodeAt s1 0 ["a", "c.js"] = some 3 ∧
      nodeAt s0 0 ["a"] = some 1 ∧ nodeAt s1 0 ["a"] = some 1 ∧
      (s0[1]?).map (fun n => (n.totalbytes, n.totalhits)) = some (100, 1) ∧
      (s1[1]?).map (fun n => (n.totalbytes, n.totalhits)) = some (100, 1) ∧
      (s0[0]?).map (fun n => (n.totalbytes, n.totalhits)) = some (0, 0) ∧
      (s1[0]?).map (fun n => (n.totalbytes, n.totalhits)) = some (7, 1) :=
  ⟨_, _, rfl, rfl, by decide, by decide, by decide, by decide, by decide, by decide, by decide⟩

/-- C9: one insertion of `/a.js` into a fresh root stores the new node twice
in the root's `subpaths`, and the report has two data rows with Path
`/a.js`. -/
theorem insert_appends_child_twice :
    ∃ s, InsertIntoTree ["", "a.js"] 0 5 freshRoot = some s ∧
      (s[0]?).map PathSize.subpaths = some [1, 1] ∧
      childNames s 0 = ["a.js", "a.js"] ∧
      PrintTreeCSV 2 s (some 0) =
        some [["Size", "Path", "File", "Hits"], ["0", "", "/", "0"],
              ["5", "/a.js", "a.js", "1"], ["5", "/a.js", "a.js", "1"]] :=
  ⟨_, rfl, by decide, by decide, by decide⟩

/-- C10: on a fresh root, inserting `/a.js` with 1 byte and then with 2 bytes
leaves the node `/a.js` with totalbytes 1, the other order leaves it with
totalbytes 2. -/
theorem insert_order_changes_totals :
    ∃ s12 s21, insertAll [(["", "a.js"], 1), (["", "a.js"], 2)] 0 freshRoot = some s12 ∧
      insertAll [(["", "a.js"], 2), (["", "a.js"], 1)] 0 freshRoot = some s21 ∧
      nodeAt s12 0 ["a.js"] = some 1 ∧ nodeAt s21 0 ["a.js"] = some 1 ∧
      (s12[1]?).map PathSize.totalbytes = some 1 ∧
      (s21[1]?).map PathSize.totalbytes = some 2 ∧
      (s12[0]?).map PathSize.totalbytes = some 2 ∧
      (s21[0]?).map PathSize.totalbytes = some 1 :=
  ⟨_, _, rfl, rfl, by decide, by decide, by decide, by decide, by decide, by decide⟩

/-! ## The scanner -/

/-- The per-line step reads only the URL, the status and the byte count of
the record. -/
theorem scanStep_fields (apalog : Line) (pathtree : Nat) (s : Store) :
    scanStep apalog pathtree s =
      scanStep (request apalog.URL apalog.Status apalog.Bytes) pathtree s := rfl

/-- C5: the per-line step is `InsertIntoTree` on the split URL with the byte
count when the status is 200 and the resource is static, and returns the
store as it was otherwise; a 404 record for `/site/main.css` changes
nothing. -/
theorem scanStep_frame (apalog : Line) (pathtree : Nat) (s : Store) :
    scanStep apalog pathtree s =
        (if apalog.Status = 200 ∧ IsStaticResource apalog = true then
          InsertIntoTree (Split apalog.URL '/') pathtree (toUint64 apalog.Bytes) s
        else some s) ∧
      scanStep { apalog with Status := 404, URL := "/site/main.css" } pathtree s = some s := by
  constructor
  · unfold scanStep
    by_cases h1 : apalog.Status = 200 <;> by_cases h2 : IsStaticResource apalog = true <;>
      simp [h1, h2]
  · rfl

/-- C6: when the pattern does not match a line (no captures), the parser
panics on `result[1]` and the scan ends there, whatever lines follow. -/
theorem scan_panics_on_unmatched_line (regex : String → List String) (inpline : String)
    (more : List String) (pathtree : Nat) (s : Store) (h : regex inpline = []) :
    parseApacheLog regex inpline = none ∧
      ScanLogIntoTree regex (inpline :: more) pathtree s = none := by
  have hp : parseApacheLog regex inpline = none := by
    simp [parseApacheLog, h]
  exact ⟨hp, by simp [ScanLogIntoTree, hp]⟩

/-- Witness for C6: a blank line followed by another line, under a pattern
that matches nothing. -/
theorem scan_panics_on_unmatched_line_witness :
    parseApacheLog (fun _ => []) "" = none ∧
      ScanLogIntoTree (fun _ => []) ["", "x"] 0 freshRoot = none :=
  scan_panics_on_unmatched_line (fun _ => []) "" ["x"] 0 freshRoot rfl

/-- C7: scanning a record with URL `/assets/img/logo.png`, status 200 and
5120 bytes into a fresh root gives a tree in which that path leads to a node
with totalbytes 5120 and totalhits 1, and the report has the row
`5120, /assets/img/logo.png, logo.png, 1`. -/
theorem scan_logo_scenario (r : Line) :
    ∃ s rows,
      scanStep { r with URL := "/assets/img/logo.png", Status := 200, Bytes := 5120 } 0 freshRoot
        = some s ∧
      nodeAt s 0 ["assets", "img", "logo.png"] = some 3 ∧
      (s[3]?).map (fun n => (n.totalbytes, n.totalhits)) = some (5120, 1) ∧
      PrintTreeCSV 4 s (some 0) = some rows ∧
      ["5120", "/assets/img/logo.png", "logo.png", "1"] ∈ rows := by
  have hs : scanStep (request "/assets/img/logo.png" 200 5120) 0 freshRoot =
      some [{ subpaths := [1, 1], pathnode := "/", lastbytes := 0, totalbytes := 0, totalhits := 0 },
            { subpaths := [2, 2], pathnode := "assets", lastbytes := 0, totalbytes := 5120, totalhits := 1 },
            { subpaths := [3, 3], pathnode := "img", lastbytes := 0, totalbytes := 5120, totalhits := 1 },
            { subpaths := [], pathnode := "logo.png", lastbytes := 0, totalbytes := 5120, totalhits := 1 }] := by
    decide
  refine ⟨_, _, (scanStep_fields _ 0 freshRoot).trans hs, by decide, by decide, rfl, ?_⟩
  decide

/-! ## The report is the pre-order listing -/

/-- A tree read at depth `n + 1` has the name stored at its address. -/
theorem treeAt_name {n : Nat} {s : Store} {c : Nat} {t : PathTree}
    (h : treeAt n s c = some t) : ∃ child, s[c]? = some child ∧ child.pathnode = t.name := by
  cases n with
  | zero => simp [treeAt] at h
  | succ n =>
    simp only [treeAt] at h
    cases hc : s[c]? with
    | none => simp [hc] at h
    | some ps =>
      simp only [hc] at h
      cases hk : treeAtList (treeAt n s) ps.subpaths with
      | none => simp [hk] at h
      | some kids =>
        simp only [hk, Option.some.injEq] at h
        subst h
        exact ⟨ps, rfl, rfl⟩

/-- The loop over `subpaths` writes the rows of the children, given that each
recursive call writes the rows of its subtree. -/
theorem traverseSubpaths_rows (n : Nat) (s : Store)
    (visit : String → Option Nat → Option (List (List String)))
    (hv : ∀ (path : String) (c : Nat) (t : PathTree), treeAt n s c = some t →
      visit path (some c) = some (preorderRows path t))
    (path : String) (cs : List Nat) (kids : List PathTree)
    (h : treeAtList (treeAt n s) cs = some kids) :
    traverseSubpaths visit s path cs = some (preorderRowsList path kids) := by
  induction cs generalizing kids with
  | nil =>
    simp only [treeAtList, Option.some.injEq] at h
    subst h
    simp [traverseSubpaths, preorderRowsList]
  | cons c cs ih =>
    simp only [treeAtList] at h
    cases ht : treeAt n s c with
    | none => simp [ht] at h
    | some t =>
      simp only [ht] at h
      cases hk : treeAtList (treeAt n s) cs with
      | none => simp [hk] at h
      | some ts =>
        simp only [hk, Option.some.injEq] at h
        subst h
        obtain ⟨child, hc, hname⟩ := treeAt_name ht
        simp only [traverseSubpaths, hc, hname, hv _ c t ht, ih ts hk, preorderRowsList]

/-- With depth bound `m` at least the depth at which the tree was read, the
traversal writes the pre-order rows of the tree. -/
theorem TraverseAndPrint_rows (n : Nat) (s : Store) :
    ∀ (m : Nat), n ≤ m → ∀ (path : String) (a : Nat) (t : PathTree),
      treeAt n s a = some t → TraverseAndPrint m s path (some a) = some (preorderRows path t) := by
  induction n with
  | zero => intro m _ path a t h; simp [treeAt] at h
  | succ n ih =>
    intro m hm path a t h
    obtain ⟨m, rfl⟩ : ∃ k, m = k + 1 := ⟨m - 1, by omega⟩
    simp only [treeAt] at h
    cases hc : s[a]? with
    | none => simp [hc] at h
    | some ps =>
      simp only [hc] at h
      cases hk : treeAtList (treeAt n s) ps.subpaths with
      | none => simp [hk] at h
      | some kids =>
        simp only [hk, Option.some.injEq] at h
        subst h
        have hv := ih m (by omega)
        simp only [TraverseAndPrint, hc,
          traverseSubpaths_rows n s (TraverseAndPrint m s) (fun p c t ht => hv p c t ht)
            path ps.subpaths kids hk, preorderRows, PrintCSVRow]

/-- The pre-order listing has one row per node. -/
theorem preorderRows_length (t : PathTree) :
    ∀ path, (preorderRows path t).length = t.size := by
  refine PathTree.rec (motive_1 := fun t => ∀ path, (preorderRows path t).length = t.size)
    (motive_2 := fun ks => ∀ path, (preorderRowsList path ks).length = PathTree.sizeList ks)
    ?_ ?_ ?_ t
  · intro n b h kids ih path
    simp [preorderRows, PathTree.size, ih path]
    omega
  · intro path
    simp [preorderRowsList, PathTree.sizeList]
  · intro k ks ihk ihks path
    simp [preorderRowsList, PathTree.sizeList, ihk, ihks]

/-- The traversal follows the `subpaths` entries: for every pointer structure
that unfolds to `t` (read at depth `n`, one child of `t` for every entry of a
`subpaths` slice), `PrintTreeCSV` with any depth bound `m ≥ n` writes the
header row followed by the pre-order rows of `t` from the empty path, one row
for every entry followed.  A node whose pointer is held by two entries is
two children of `t`. -/
theorem PrintTreeCSV_preorder (n : Nat) (s : Store) (a : Nat) (t : PathTree)
    (h : treeAt n s a = some t) (m : Nat) (hm : n ≤ m) :
    PrintTreeCSV m s (some a) = some (["Size", "Path", "File", "Hits"] :: preorderRows "" t) ∧
      (preorderRows "" t).length = t.size := by
  refine ⟨?_, preorderRows_length t ""⟩
  simp [PrintTreeCSV, TraverseAndPrint_rows n s m hm "" a t h, PrintCSVHeaders]

/-- The traversal on the structure left by inserting `/a.js` with 5 bytes
into a fresh root, where the root's `subpaths` holds the new node twice: it
unfolds to a root with two children. -/
theorem PrintTreeCSV_preorder_twice :
    treeAt 2
        [{ subpaths := [1, 1], pathnode := "/", lastbytes := 0, totalbytes := 0, totalhits := 0 },
         { subpaths := [], pathnode := "a.js", lastbytes := 0, totalbytes := 5, totalhits := 1 }] 0
      = some (.node "/" 0 0 [.node "a.js" 5 1 [], .node "a.js" 5 1 []]) ∧
    2 ≤ 7 ∧
    PrintTreeCSV 7
        [{ subpaths := [1, 1], pathnode := "/", lastbytes := 0, totalbytes := 0, totalhits := 0 },
         { subpaths := [], pathnode := "a.js", lastbytes := 0, totalbytes := 5, totalhits := 1 }]
        (some 0)
      = some (["Size", "Path", "File", "Hits"] ::
          preorderRows "" (.node "/" 0 0 [.node "a.js" 5 1 [], .node "a.js" 5 1 []])) ∧
    (preorderRows "" (.node "/" 0 0 [.node "a.js" 5 1 [], .node "a.js" 5 1 []])).length =
      (PathTree.node "/" 0 0 [.node "a.js" 5 1 [], .node "a.js" 5 1 []]).size :=
  ⟨rfl, by decide,
    PrintTreeCSV_preorder 2
      [{ subpaths := [1, 1], pathnode := "/", lastbytes := 0, totalbytes := 0, totalhits := 0 },
       { subpaths := [], pathnode := "a.js", lastbytes := 0, totalbytes := 5, totalhits := 1 }]
      0 (.node "/" 0 0 [.node "a.js" 5 1 [], .node "a.js" 5 1 []]) rfl 7 (by decide)⟩

/-- C8: after one insertion of `/a/b.js` with 100 bytes into a fresh root the
tree has three nodes (the root, `a` and `b.js`), and `PrintTreeCSV` writes the
header and seven data rows: the row of `a` twice and the row of `b.js` four
times, since each node's pointer is held twice by its parent. -/
theorem PrintTreeCSV_repeats_nodes :
    ∃ s rows, InsertIntoTree ["", "a", "b.js"] 0 100 freshRoot = some s ∧
      s.length = 3 ∧
      nodeAt s 0 [] = some 0 ∧ nodeAt s 0 ["a"] = some 1 ∧ nodeAt s 0 ["a", "b.js"] = some 2 ∧
      PrintTreeCSV 3 s (some 0) = some rows ∧
      rows = [["Size", "Path", "File", "Hits"],
              ["0", "", "/", "0"],
              ["100", "/a", "a", "1"],
              ["100", "/a/b.js", "b.js", "1"],
              ["100", "/a/b.js", "b.js", "1"],
              ["100", "/a", "a", "1"],
              ["100", "/a/b.js", "b.js", "1"],
              ["100", "/a/b.js", "b.js", "1"]] ∧
      rows.length = 1 + 7 ∧
      rows.count ["100", "/a", "a", "1"] = 2 ∧
      rows.count ["100", "/a/b.js", "b.js", "1"] = 4 := by
  refine ⟨[{ subpaths := [1, 1], pathnode := "/", lastbytes := 0, totalbytes := 0, totalhits := 0 },
           { subpaths := [2, 2], pathnode := "a", lastbytes := 0, totalbytes := 100, totalhits := 1 },
           { subpaths := [], pathnode := "b.js", lastbytes := 0, totalbytes := 100,
             totalhits := 1 }],
          [["Size", "Path", "File", "Hits"],
           ["0", "", "/", "0"],
           ["100", "/a", "a", "1"],
           ["100", "/a/b.js", "b.js", "1"],
           ["100", "/a/b.js", "b.js", "1"],
           ["100", "/a", "a", "1"],
           ["100", "/a/b.js", "b.js", "1"],
           ["100", "/a/b.js", "b.js", "1"]], ?_, ?_, ?_, ?_, ?_, ?_, rfl, ?_, ?_, ?_⟩ <;> decide

/-! ## The static-resource test -/

/-- Without a separator the text after the last separator is the whole text. -/
theorem afterLast_of_not_mem (sep : Char) (l : List Char) (h : sep ∉ l) :
    afterLast sep l = l := by
  unfold afterLast
  rw [List.takeWhile_eq_self_iff.2, List.reverse_reverse]
  intro c hc
  have hc' : c ∈ l := List.mem_reverse.1 hc
  simp only [ne_eq, decide_not, Bool.not_eq_true', decide_eq_false_iff_not]
  rintro rfl
  exact h hc'

/-- The text after the last separator of `pre ++ sep :: seg`, when `seg` has
no separator, is `seg`. -/
theorem afterLast_append (sep : Char) (pre seg : List Char) (h : sep ∉ seg) :
    afterLast sep (pre ++ sep :: seg) = seg := by
  unfold afterLast
  have hrev : (pre ++ sep :: seg).reverse = seg.reverse ++ sep :: pre.reverse := by simp
  rw [hrev, List.takeWhile_append_of_pos]
  · simp
  · intro c hc
    have hc' : c ∈ seg := List.mem_reverse.1 hc
    simp only [ne_eq, decide_not, Bool.not_eq_true', decide_eq_false_iff_not]
    rintro rfl
    exact h hc'

/-- A text with a separator splits at its last separator. -/
theorem exists_last_sep (sep : Char) (l : List Char) (h : sep ∈ l) :
    ∃ pre seg, l = pre ++ sep :: seg ∧ sep ∉ seg := by
  obtain ⟨as, bs, hl, has⟩ := List.eq_append_cons_of_mem (List.mem_reverse.2 h)
  refine ⟨bs.reverse, as.reverse, ?_, fun hm => has (List.mem_reverse.1 hm)⟩
  have := congrArg List.reverse hl
  simpa using this

/-- Splitting a text without separator gives the text as the only piece. -/
theorem splitChars_of_not_mem (sep : Char) (l : List Char) (h : sep ∉ l) :
    splitChars sep l = [l] := by
  induction l with
  | nil => rfl
  | cons c cs ih =>
    have hc : c ≠ sep := fun e => h (by simp [e])
    have hcs : sep ∉ cs := fun e => h (List.mem_cons_of_mem _ e)
    simp [splitChars, hc, ih hcs]

/-- Splitting `pre ++ sep :: seg` gives some pieces for `pre` followed by the
pieces of `seg`. -/
theorem splitChars_append (sep : Char) (pre seg : List Char) :
    ∃ w ws, splitChars sep (pre ++ sep :: seg) = (w :: ws) ++ splitChars sep seg := by
  induction pre with
  | nil => exact ⟨[], [], by simp [splitChars]⟩
  | cons c cs ih =>
    obtain ⟨w, ws, hw⟩ := ih
    by_cases hc : c = sep
    · exact ⟨[], w :: ws, by simp [splitChars, hc, hw]⟩
    · exact ⟨c :: w, ws, by simp [splitChars, hc, hw]⟩

/-- The last piece of a split is the text after the last separator. -/
theorem splitChars_getLast (sep : Char) (l : List Char) :
    (splitChars sep l).getLast? = some (afterLast sep l) := by
  by_cases h : sep ∈ l
  · obtain ⟨pre, seg, rfl, hseg⟩ := exists_last_sep sep l h
    obtain ⟨w, ws, hw⟩ := splitChars_append sep pre seg
    rw [hw, splitChars_of_not_mem sep seg hseg, afterLast_append sep pre seg hseg]
    exact List.getLast?_concat (w :: ws)
  · rw [splitChars_of_not_mem sep l h, afterLast_of_not_mem sep l h]
    rfl

/-- The last element of `Split`, read by index as the program does. -/
theorem Split_last (s : String) (sep : Char) :
    (Split s sep)[(Split s sep).length - 1]? = some (String.mk (afterLast sep s.data)) := by
  rw [← List.getLast?_eq_getElem?]
  simp [Split, List.getLast?_map, splitChars_getLast]

/-- The list returned by `Split` is never empty. -/
theorem Split_length_pos (s : String) (sep : Char) : 0 < (Split s sep).length := by
  cases h : Split s sep with
  | nil =>
    have := Split_last s sep
    simp [h] at this
  | cons a l => simp

/-- The program's test, unfolded: the final segment is non-empty and the
bar-delimited text after its last `.` occurs in the bar-delimited list. -/
theorem IsStaticResource_eq (apalog : Line) :
    IsStaticResource apalog =
      (decide ((finalSegment apalog.URL).length > 0) &&
        containsChars ('|' :: ((extensionOf (finalSegment apalog.URL)).data ++ ['|']))
          "|js|jpg|png|gif|css|json|".data) := by
  unfold IsStaticResource
  simp only [Split_last, Split_length_pos, gt_iff_lt, if_true]
  have key : ∀ b : Bool, (if b = true then true else false) = b := by
    intro b; cases b <;> rfl
  simp only [key]
  show (if 0 < (finalSegment apalog.URL).length then
      Contains "|js|jpg|png|gif|css|json|" ("|" ++ extensionOf (finalSegment apalog.URL) ++ "|")
    else false) = _
  by_cases h : 0 < (finalSegment apalog.URL).length
  · simp only [h, if_true, decide_True, Bool.true_and]
    rfl
  · simp only [h, if_false, decide_False, Bool.false_and]

/-- A word followed by a bar is a prefix of another word followed by a bar
only when the words are equal, the words having no bar. -/
theorem isPrefixOf_bar (ext w tail : List Char) (he : '|' ∉ ext) (hw : '|' ∉ w) :
    (ext ++ ['|']).isPrefixOf (w ++ '|' :: tail) = true ↔ ext = w := by
  induction ext generalizing w with
  | nil =>
    cases w with
    | nil => simp
    | cons c w =>
      have hc : ¬ ('|' = c) := fun e => hw (by subst e; exact List.mem_cons_self _ _)
      simp [hc]
  | cons e ext ih =>
    have he1 : ¬ (e = '|') := fun h => he (by simp [h])
    have he2 : '|' ∉ ext := fun h => he (List.mem_cons_of_mem _ h)
    cases w with
    | nil => simp [he1]
    | cons c w =>
      have hw2 : '|' ∉ w := fun h => hw (List.mem_cons_of_mem _ h)
      rw [List.cons_append, List.cons_append, List.isPrefixOf_cons₂, Bool.and_eq_true,
        beq_iff_eq, ih w he2 hw2, List.cons.injEq]

/-- A needle that starts with a bar does not start inside a word without
bars. -/
theorem containsChars_skip (x w rest : List Char) (hw : '|' ∉ w) :
    containsChars ('|' :: x) (w ++ rest) = containsChars ('|' :: x) rest := by
  induction w with
  | nil => rfl
  | cons c w ih =>
    have hc : ¬ ('|' = c) := fun e => hw (by subst e; exact List.mem_cons_self _ _)
    have hw2 : '|' ∉ w := fun h => hw (List.mem_cons_of_mem _ h)
    simp [containsChars, hc, ih hw2]

/-- A barred list starts with a bar. -/
theorem barred_head (ws : List (List Char)) : ∃ tail, barred ws = '|' :: tail := by
  cases ws with
  | nil => exact ⟨[], rfl⟩
  | cons w ws => exact ⟨w ++ barred ws, rfl⟩

/-- A bar-delimited word without bars occurs in a barred list of words without
bars exactly when it is one of the words. -/
theorem containsChars_barred (ext : List Char) (he : '|' ∉ ext) (ws : List (List Char))
    (hws : ∀ w ∈ ws, '|' ∉ w) :
    containsChars ('|' :: (ext ++ ['|'])) (barred ws) = true ↔ ext ∈ ws := by
  induction ws with
  | nil => simp [barred, containsChars]
  | cons w ws ih =>
    have hw : '|' ∉ w := hws w (List.mem_cons_self _ _)
    have hws2 : ∀ v ∈ ws, '|' ∉ v := fun v hv => hws v (List.mem_cons_of_mem _ hv)
    obtain ⟨tail, htail⟩ := barred_head ws
    have h1 : (ext ++ ['|']).isPrefixOf (w ++ barred ws) = true ↔ ext = w := by
      rw [htail]
      exact isPrefixOf_bar ext w tail he hw
    simp only [barred, containsChars, List.isPrefixOf_cons₂, beq_self_eq_true, Bool.true_and,
      Bool.or_eq_true, h1, containsChars_skip _ w _ hw, ih hws2, List.mem_cons]

/-- C4, as the program has it: when the final segment of the URL (the text
after the last `/`) is empty the test is false; when that segment contains a
`.` and the text after its last `.` contains no bar, the test is true exactly
when that text is one of js, jpg, png, gif, css, json. -/
theorem IsStaticResource_extension (apalog : Line) :
    ((finalSegment apalog.URL).data = [] → IsStaticResource apalog = false) ∧
    ('.' ∈ (finalSegment apalog.URL).data →
      '|' ∉ (extensionOf (finalSegment apalog.URL)).data →
      (IsStaticResource apalog = true ↔
        extensionOf (finalSegment apalog.URL) ∈ ["js", "jpg", "png", "gif", "css", "json"])) := by
  constructor
  · intro h
    rw [IsStaticResource_eq]
    simp [String.length, h]
  · intro hdot hbar
    have hlen : (finalSegment apalog.URL).length > 0 := by
      cases hd : (finalSegment apalog.URL).data with
      | nil => simp [hd] at hdot
      | cons c cs => simp [String.length, hd]
    have hhay : "|js|jpg|png|gif|css|json|".data =
        barred [['j', 's'], ['j', 'p', 'g'], ['p', 'n', 'g'], ['g', 'i', 'f'], ['c', 's', 's'],
          ['j', 's', 'o', 'n']] := by decide
    rw [IsStaticResource_eq, hhay]
    simp only [hlen, decide_True, Bool.true_and]
    rw [containsChars_barred _ hbar _ (by decide)]
    simp only [List.mem_cons, String.ext_iff, List.mem_singleton, List.not_mem_nil, or_false]

/-- Witness for C4: the URL `/assets/app.min.js`. -/
theorem IsStaticResource_extension_witness :
    ((finalSegment "/assets/").data = [] → IsStaticResource (request "/assets/" 200 0) = false) ∧
    ('.' ∈ (finalSegment "/assets/app.min.js").data →
      '|' ∉ (extensionOf (finalSegment "/assets/app.min.js")).data →
      (IsStaticResource (request "/assets/app.min.js" 200 0) = true ↔
        extensionOf (finalSegment "/assets/app.min.js") ∈
          ["js", "jpg", "png", "gif", "css", "json"])) :=
  ⟨(IsStaticResource_extension (request "/assets/" 200 0)).1,
   (IsStaticResource_extension (request "/assets/app.min.js" 200 0)).2⟩

/-- C4 as stated fails: `/a.js/` has final non-empty segment `a.js` but is not
static for the program; `/api/json` has no `.` in its final segment and
`/x.js|jpg` has the extension `js|jpg`, yet both are static for the program. -/
theorem IsStaticResource_not_spec :
    IsStaticResource (request "/a.js/" 200 0) = false ∧ specIsStatic "/a.js/" = true ∧
    IsStaticResource (request "/api/json" 200 0) = true ∧ specIsStatic "/api/json" = false ∧
    IsStaticResource (request "/x.js|jpg" 200 0) = true ∧ specIsStatic "/x.js|jpg" = false := by
  decide

/-! ## More on the static-resource test -/

/-- The text after the last separator of `x ++ w`, when `w` has no separator,
is that of `x` followed by `w`. -/
theorem afterLast_append_right (sep : Char) (x w : List Char) (h : sep ∉ w) :
    afterLast sep (x ++ w) = afterLast sep x ++ w := by
  unfold afterLast
  rw [List.reverse_append, List.takeWhile_append_of_pos, List.reverse_append,
    List.reverse_reverse]
  intro c hc
  have hc' : c ∈ w := List.mem_reverse.1 hc
  simp only [ne_eq, decide_not, Bool.not_eq_true', decide_eq_false_iff_not]
  rintro rfl
  exact h hc'

/-- A URL that ends in a dot followed by `ext`, where `ext` has neither `/`
nor `.` and its bar-delimited form occurs in the list, is static. -/
theorem IsStaticResource_of_suffix (apalog : Line) (x ext : List Char)
    (hurl : apalog.URL.data = x ++ '.' :: ext) (hs : '/' ∉ ext) (hd : '.' ∉ ext)
    (hc : containsChars ('|' :: (ext ++ ['|'])) "|js|jpg|png|gif|css|json|".data = true) :
    IsStaticResource apalog = true := by
  have hseg : (finalSegment apalog.URL).data = afterLast '/' x ++ '.' :: ext := by
    show afterLast '/' apalog.URL.data = _
    rw [hurl]
    exact afterLast_append_right '/' x ('.' :: ext) (by simp [hs])
  have hext : (extensionOf (finalSegment apalog.URL)).data = ext := by
    show afterLast '.' (finalSegment apalog.URL).data = _
    rw [hseg]
    exact afterLast_append '.' _ ext hd
  have hlen : (finalSegment apalog.URL).length > 0 := by
    simp [String.length, hseg]
  rw [IsStaticResource_eq, hext, hc]
  simp [hlen]

/-- C11: every record whose URL ends in `.js`, `.jpg`, `.png`, `.gif`, `.css`
or `.json` is static. -/
theorem IsStaticResource_listed_suffix (apalog : Line) (e : String)
    (he : e ∈ [".js", ".jpg", ".png", ".gif", ".css", ".json"])
    (hsuf : e.data <:+ apalog.URL.data) : IsStaticResource apalog = true := by
  obtain ⟨x, hx⟩ := hsuf
  simp only [List.mem_cons, List.mem_singleton, List.not_mem_nil, or_false] at he
  rcases he with rfl | rfl | rfl | rfl | rfl | rfl
  · exact IsStaticResource_of_suffix apalog x ['j', 's'] hx.symm (by decide) (by decide) (by decide)
  · exact IsStaticResource_of_suffix apalog x ['j', 'p', 'g'] hx.symm (by decide) (by decide)
      (by decide)
  · exact IsStaticResource_of_suffix apalog x ['p', 'n', 'g'] hx.symm (by decide) (by decide)
      (by decide)
  · exact IsStaticResource_of_suffix apalog x ['g', 'i', 'f'] hx.symm (by decide) (by decide)
      (by decide)
  · exact IsStaticResource_of_suffix apalog x ['c', 's', 's'] hx.symm (by decide) (by decide)
      (by decide)
  · exact IsStaticResource_of_suffix apalog x ['j', 's', 'o', 'n'] hx.symm (by decide) (by decide)
      (by decide)

/-- Witness for C11: the URL `/static/site.min.css`. -/
theorem IsStaticResource_listed_suffix_witness :
    ".css" ∈ [".js", ".jpg", ".png", ".gif", ".css", ".json"] ∧
      ".css".data <:+ (request "/static/site.min.css" 200 0).URL.data ∧
      IsStaticResource (request "/static/site.min.css" 200 0) = true :=
  ⟨by decide, by decide,
    IsStaticResource_listed_suffix (request "/static/site.min.css" 200 0) ".css" (by decide)
      (by decide)⟩

/-- C12: the final segment of `/api/json` contains no `.`, and the program
takes the record for a static resource. -/
theorem IsStaticResource_without_extension :
    '.' ∉ (finalSegment (request "/api/json" 200 0).URL).data ∧
      (Split (request "/api/json" 200 0).URL '/').getLast? = some "json" ∧
      IsStaticResource (request "/api/json" 200 0) = true := by
  decide

/-! ## The parser on a matched line -/

/-- The record made from a full capture list. -/
theorem parseApacheLog_matched (regex : String → List String) (inpline : String)
    (c0 c1 c2 c3 c4 c5 c6 c7 c8 c9 c10 : String)
    (h : regex inpline = [c0, c1, c2, c3, c4, c5, c6, c7, c8, c9, c10]) :
    parseApacheLog regex inpline =
      some { RemoteHost := c1, Time := c2, Request := c3, Protocol := c5,
             Status := (Atoi c7).getD 0, Bytes := (Atoi c8).getD 0,
             Referer := c9, UserAgent := c10,
             URL := if c4 = "" ∧ c6 ≠ "" then c6 else c4 } := by
  simp only [parseApacheLog, h, List.getElem?_cons_succ, List.getElem?_cons_zero]
  cases Atoi c7 <;> cases Atoi c8 <;> rfl

/-- C13: when the pattern matches (captures 0 to 10), the parser returns a
record; its status is the value `Atoi` reads from capture 7, 0 when `Atoi`
fails, and its byte count is the value read from capture 8, 0 when `Atoi`
fails, as it does on `-`. -/
theorem parseApacheLog_numbers (regex : String → List String) (inpline : String)
    (c0 c1 c2 c3 c4 c5 c6 c7 c8 c9 c10 : String)
    (h : regex inpline = [c0, c1, c2, c3, c4, c5, c6, c7, c8, c9, c10]) :
    ∃ r, parseApacheLog regex inpline = some r ∧
      r.Status = (Atoi c7).getD 0 ∧ r.Bytes = (Atoi c8).getD 0 ∧
      (c8 = "-" → r.Bytes = 0) ∧
      Atoi "-" = none ∧ Atoi "200" = some 200 ∧ Atoi "5120" = some 5120 ∧ Atoi "12x" = none := by
  refine ⟨_, parseApacheLog_matched regex inpline c0 c1 c2 c3 c4 c5 c6 c7 c8 c9 c10 h, rfl, rfl,
    ?_, by decide, by decide, by decide, by decide⟩
  rintro rfl
  rfl

/-- Witness for C13: a capture list with status `404` and byte count `-`. -/
theorem parseApacheLog_numbers_witness :
    ∃ r, parseApacheLog
        (fun _ => ["", "h", "t", "GET", "/x", "HTTP/1.1", "", "404", "-", "-", "ua"]) "line"
          = some r ∧
      r.Status = (Atoi "404").getD 0 ∧ r.Bytes = (Atoi "-").getD 0 ∧
      ("-" = "-" → r.Bytes = 0) ∧
      Atoi "-" = none ∧ Atoi "200" = some 200 ∧ Atoi "5120" = some 5120 ∧ Atoi "12x" = none :=
  parseApacheLog_numbers (fun _ => ["", "h", "t", "GET", "/x", "HTTP/1.1", "", "404", "-", "-", "ua"])
    "line" "" "h" "t" "GET" "/x" "HTTP/1.1" "" "404" "-" "-" "ua" rfl

/-- C15: when the pattern matches (captures 0 to 10), the URL of the record is
capture 4 when capture 4 is not empty and capture 6 otherwise. -/
theorem parseApacheLog_url (regex : String → List String) (inpline : String)
    (c0 c1 c2 c3 c4 c5 c6 c7 c8 c9 c10 : String)
    (h : regex inpline = [c0, c1, c2, c3, c4, c5, c6, c7, c8, c9, c10]) :
    ∃ r, parseApacheLog regex inpline = some r ∧
      r.URL = (if c4 ≠ "" then c4 else c6) := by
  refine ⟨_, parseApacheLog_matched regex inpline c0 c1 c2 c3 c4 c5 c6 c7 c8 c9 c10 h, ?_⟩
  show (if c4 = "" ∧ c6 ≠ "" then c6 else c4) = (if c4 ≠ "" then c4 else c6)
  by_cases h4 : c4 = "" <;> by_cases h6 : c6 = "" <;> simp [h4, h6]

/-- Witness for C15: a request line without protocol, where capture 4 is empty
and capture 6 holds the URL. -/
theorem parseApacheLog_url_witness :
    ∃ r, parseApacheLog
        (fun _ => ["", "h", "t", "GET", "", "", "/only.js", "200", "7", "-", "ua"]) "line"
          = some r ∧
      r.URL = (if ("" : String) ≠ "" then "" else "/only.js") :=
  parseApacheLog_url (fun _ => ["", "h", "t", "GET", "", "", "/only.js", "200", "7", "-", "ua"])
    "line" "" "h" "t" "GET" "" "" "/only.js" "200" "7" "-" "ua" rfl

/-! ## Empty segments -/

/-- Insertion ignores the empty parts of a path. -/
theorem InsertIntoTree_segments (parts : List String) (bytes : Nat) :
    ∀ (pathtree : Nat) (s : Store),
      InsertIntoTree parts pathtree bytes s = InsertIntoTree (segments parts) pathtree bytes s := by
  induction parts with
  | nil => intro pathtree s; rfl
  | cons part rest ih =>
    intro pathtree s
    by_cases hp : part = ""
    · have hseg : segments (part :: rest) = segments rest := by simp [segments, hp]
      rw [hseg, ← ih pathtree s]
      simp [InsertIntoTree, hp]
    · have hseg : segments (part :: rest) = part :: segments rest := by simp [segments, hp]
      rw [hseg]
      simp only [InsertIntoTree, hp, if_false, ih]

/-- C16: a leading empty segment does not change what the insertion does, and
an empty segment list leaves the tree as it is. -/
theorem InsertIntoTree_leading_empty (parts : List String) (pathtree bytes : Nat) (s : Store) :
    InsertIntoTree ([""] ++ parts) pathtree bytes s = InsertIntoTree parts pathtree bytes s ∧
      InsertIntoTree [] pathtree bytes s = some s := by
  constructor
  · simp [InsertIntoTree]
  · rfl

/-- C20: inserting a path does the same as inserting it with all empty
strings removed, so `/a//b.js` and `/a/b.js` are inserted alike. -/
theorem InsertIntoTree_ignores_empty (parts : List String) (pathtree bytes : Nat) (s : Store) :
    InsertIntoTree parts pathtree bytes s =
        InsertIntoTree (parts.filter fun p => p ≠ "") pathtree bytes s ∧
      InsertIntoTree (Split "/a//b.js" '/') pathtree bytes s =
        InsertIntoTree (Split "/a/b.js" '/') pathtree bytes s := by
  refine ⟨InsertIntoTree_segments parts bytes pathtree s, ?_⟩
  rw [InsertIntoTree_segments (Split "/a//b.js" '/'), InsertIntoTree_segments (Split "/a/b.js" '/')]
  have h : segments (Split "/a//b.js" '/') = segments (Split "/a/b.js" '/') := by decide
  rw [h]

/-! ## One level of the insertion -/

/-- The found branch: credit `pathtree` and descend into the child. -/
theorem InsertIntoTree_found (part : String) (rest : List String) (pathtree bytes : Nat)
    (s : Store) (pt : PathSize) (child : Nat) (hp : part ≠ "") (hpt : s[pathtree]? = some pt)
    (hf : findSubpath s part pt.subpaths = some (some child)) :
    InsertIntoTree (part :: rest) pathtree bytes s =
      InsertIntoTree rest child bytes (s.set pathtree (credit bytes pt)) := by
  simp only [InsertIntoTree, hp, if_false, hpt, hf, credit]

/-- The not-found branch: make the child and descend into it. -/
theorem InsertIntoTree_new (part : String) (rest : List String) (pathtree bytes : Nat)
    (s : Store) (pt : PathSize) (hp : part ≠ "") (hpt : s[pathtree]? = some pt)
    (hf : findSubpath s part pt.subpaths = some none) :
    InsertIntoTree (part :: rest) pathtree bytes s =
      InsertIntoTree rest s.length bytes (withNewChild s pathtree pt part bytes) := by
  have hlt : pathtree < s.length := (List.getElem?_eq_some.1 hpt).1
  have hne : pathtree ≠ s.length := Nat.ne_of_lt hlt
  have h1 : (s ++ [PathSize.mk [] part 0 0 0])[pathtree]? = some pt := by
    rw [List.getElem?_append_left hlt, hpt]
  simp only [InsertIntoTree, hp, if_false, hpt, hf, PathSizeFactory, Store.modify, h1]
  rw [List.set_append_left _ _ hlt]
  have h2 : (s.set pathtree { pt with subpaths := pt.subpaths ++ [s.length] } ++
      [PathSize.mk [] part 0 0 0])[s.length]? = some (PathSize.mk [] part 0 0 0) := by
    rw [List.getElem?_append_right (by simp)]
    simp
  simp only [h2]
  have h3 : ((s.set pathtree { pt with subpaths := pt.subpaths ++ [s.length] } ++
      [PathSize.mk [] part 0 0 0]).set s.length (PathSize.mk [] part 0 bytes 1))[pathtree]? =
      some { pt with subpaths := pt.subpaths ++ [s.length] } := by
    rw [List.getElem?_set_ne (Ne.symm hne), List.getElem?_append_left (by simpa using hlt),
      List.getElem?_set_self hlt]
  simp only [h3]
  congr 1
  apply List.ext_getElem?
  intro n
  by_cases hn1 : n = pathtree
  · subst hn1
    simp [withNewChild, List.getElem?_set, List.getElem?_append, hlt]
  · by_cases hn2 : n = s.length
    · subst hn2
      simp [withNewChild, List.getElem?_set, List.getElem?_append, hne]
    · by_cases hn3 : n < s.length
      · simp [withNewChild, List.getElem?_set, List.getElem?_append, hn3, Ne.symm hn1,
          Ne.symm hn2]
      · simp [withNewChild, List.getElem?_set, List.getElem?_append, hn3, Ne.symm hn1,
          Ne.symm hn2]

/-! ## Lookups in the stores of one level -/

/-- Well-formedness read through lookups. -/
theorem wellFormed_iff (s : Store) :
    wellFormed s = true ↔
      ∀ (a : Nat) (node : PathSize), s[a]? = some node → ∀ c ∈ node.subpaths, c < s.length := by
  unfold wellFormed
  simp only [List.all_eq_true, decide_eq_true_eq]
  constructor
  · intro h a node ha c hc
    exact h node (List.mem_iff_getElem?.2 ⟨a, ha⟩) c hc
  · intro h node hn c hc
    obtain ⟨a, ha⟩ := List.mem_iff_getElem?.1 hn
    exact h a node ha c hc

/-- On allocated pointers the search loop does not fault; what it finds is an
entry of the slice with the name searched for. -/
theorem findSubpath_total (s : Store) (name : String) (l : List Nat)
    (h : ∀ c ∈ l, c < s.length) :
    (∃ c, findSubpath s name l = some (some c) ∧ c ∈ l ∧
        ∃ ch, s[c]? = some ch ∧ ch.pathnode = name) ∨
      findSubpath s name l = some none := by
  induction l with
  | nil => exact Or.inr rfl
  | cons c cs ih =>
    have hc : c < s.length := h c (List.mem_cons_self _ _)
    have hcs : ∀ d ∈ cs, d < s.length := fun d hd => h d (List.mem_cons_of_mem _ hd)
    have hget : s[c]? = some s[c] := List.getElem?_eq_getElem hc
    by_cases hn : s[c].pathnode = name
    · left
      exact ⟨c, by simp [findSubpath, hget, hn], List.mem_cons_self _ _, s[c], hget, hn⟩
    · rcases ih hcs with ⟨d, hd, hdm, hch⟩ | hnone
      · left
        exact ⟨d, by simp [findSubpath, hget, hn, hd], List.mem_cons_of_mem _ hdm, hch⟩
      · right
        simp [findSubpath, hget, hn, hnone]

/-- The search loop reads only the names of the nodes. -/
theorem findSubpath_congr (s1 s : Store)
    (hn : ∀ a : Nat, (s1[a]?).map PathSize.pathnode = (s[a]?).map PathSize.pathnode)
    (name : String) (l : List Nat) : findSubpath s1 name l = findSubpath s name l := by
  induction l with
  | nil => rfl
  | cons c cs ih =>
    have hc := hn c
    simp only [findSubpath]
    cases h1 : s1[c]? with
    | none =>
      cases h2 : s[c]? with
      | none => rfl
      | some n2 => simp [h1, h2] at hc
    | some n1 =>
      cases h2 : s[c]? with
      | none => simp [h1, h2] at hc
      | some n2 =>
        simp only [h1, h2, Option.map_some', Option.some.injEq] at hc
        simp only [hc, ih]

/-- The walk along a segment path reads only the names and the `subpaths` of
the nodes. -/
theorem nodeAt_congr (s1 s : Store) (hl : s1.length = s.length)
    (hn : ∀ a : Nat, (s1[a]?).map PathSize.pathnode = (s[a]?).map PathSize.pathnode)
    (hs : ∀ a : Nat, (s1[a]?).map PathSize.subpaths = (s[a]?).map PathSize.subpaths)
    (q : List String) : ∀ a, nodeAt s1 a q = nodeAt s a q := by
  induction q with
  | nil => intro a; simp [nodeAt, hl]
  | cons seg more ih =>
    intro a
    have ha := hs a
    simp only [nodeAt]
    cases h1 : s1[a]? with
    | none =>
      cases h2 : s[a]? with
      | none => rfl
      | some n2 => simp [h1, h2] at ha
    | some n1 =>
      cases h2 : s[a]? with
      | none => simp [h1, h2] at ha
      | some n2 =>
        simp only [h1, h2, Option.map_some', Option.some.injEq] at ha
        simp only [ha, findSubpath_congr s1 s hn]
        cases findSubpath s seg n2.subpaths with
        | none => rfl
        | some r =>
          cases r with
          | none => rfl
          | some c => exact ih c

/-- Crediting a node changes no name. -/
theorem credit_pathnode (s : Store) (pathtree bytes : Nat) (pt : PathSize)
    (hpt : s[pathtree]? = some pt) (a : Nat) :
    ((s.set pathtree (credit bytes pt))[a]?).map PathSize.pathnode =
      (s[a]?).map PathSize.pathnode := by
  have hlt : pathtree < s.length := (List.getElem?_eq_some.1 hpt).1
  by_cases h : pathtree = a
  · subst h
    simp [List.getElem?_set, hlt, hpt, credit]
  · simp [List.getElem?_set, h]

/-- Crediting a node changes no `subpaths`. -/
theorem credit_subpaths (s : Store) (pathtree bytes : Nat) (pt : PathSize)
    (hpt : s[pathtree]? = some pt) (a : Nat) :
    ((s.set pathtree (credit bytes pt))[a]?).map PathSize.subpaths =
      (s[a]?).map PathSize.subpaths := by
  have hlt : pathtree < s.length := (List.getElem?_eq_some.1 hpt).1
  by_cases h : pathtree = a
  · subst h
    simp [List.getElem?_set, hlt, hpt, credit]
  · simp [List.getElem?_set, h]

/-- The length of the store with a new child. -/
theorem withNewChild_length (s : Store) (pathtree : Nat) (pt : PathSize) (part : String)
    (bytes : Nat) : (withNewChild s pathtree pt part bytes).length = s.length + 1 := by
  simp [withNewChild]

/-- The parent in the store with a new child. -/
theorem withNewChild_parent (s : Store) (pathtree : Nat) (pt : PathSize) (part : String)
    (bytes : Nat) (hlt : pathtree < s.length) :
    (withNewChild s pathtree pt part bytes)[pathtree]? =
      some { pt with subpaths := pt.subpaths ++ [s.length, s.length] } := by
  simp [withNewChild, List.getElem?_append, List.getElem?_set, hlt]

/-- The new child in the store with a new child. -/
theorem withNewChild_child (s : Store) (pathtree : Nat) (pt : PathSize) (part : String)
    (bytes : Nat) :
    (withNewChild s pathtree pt part bytes)[s.length]? =
      some { subpaths := [], pathnode := part, lastbytes := 0, totalbytes := bytes,
             totalhits := 1 } := by
  simp [withNewChild, List.getElem?_append]

/-- The other nodes in the store with a new child. -/
theorem withNewChild_other (s : Store) (pathtree : Nat) (pt : PathSize) (part : String)
    (bytes : Nat) (a : Nat) (ha : a < s.length) (hne : a ≠ pathtree) :
    (withNewChild s pathtree pt part bytes)[a]? = s[a]? := by
  simp [withNewChild, List.getElem?_append, List.getElem?_set, ha, Ne.symm hne]

/-! ## What every insertion keeps -/

/-- A store grows into itself. -/
theorem grows_refl (s : Store) : grows s s :=
  ⟨Nat.le_refl _, fun _ node h => ⟨node, h, rfl, List.prefix_refl _⟩⟩

/-- Growth composes. -/
theorem grows_trans {s s1 s2 : Store} (h1 : grows s s1) (h2 : grows s1 s2) : grows s s2 := by
  refine ⟨Nat.le_trans h1.1 h2.1, ?_⟩
  intro a node ha
  obtain ⟨n1, hn1, hp1, hs1⟩ := h1.2 a node ha
  obtain ⟨n2, hn2, hp2, hs2⟩ := h2.2 a n1 hn1
  exact ⟨n2, hn2, hp2.trans hp1, hs1.trans hs2⟩

/-- Crediting a node is growth. -/
theorem grows_credit (s : Store) (pathtree bytes : Nat) (pt : PathSize)
    (hpt : s[pathtree]? = some pt) : grows s (s.set pathtree (credit bytes pt)) := by
  have hlt : pathtree < s.length := (List.getElem?_eq_some.1 hpt).1
  refine ⟨by simp, ?_⟩
  intro a node ha
  by_cases h : pathtree = a
  · subst h
    rw [hpt] at ha
    cases ha
    exact ⟨credit bytes pt, by simp [List.getElem?_set, hlt], rfl, List.prefix_refl _⟩
  · exact ⟨node, by simp [List.getElem?_set, h, ha], rfl, List.prefix_refl _⟩

/-- Adding a child is growth. -/
theorem grows_withNewChild (s : Store) (pathtree bytes : Nat) (pt : PathSize) (part : String)
    (hpt : s[pathtree]? = some pt) : grows s (withNewChild s pathtree pt part bytes) := by
  have hlt : pathtree < s.length := (List.getElem?_eq_some.1 hpt).1
  refine ⟨by simp [withNewChild_length], ?_⟩
  intro a node ha
  have halt : a < s.length := (List.getElem?_eq_some.1 ha).1
  by_cases h : a = pathtree
  · subst h
    rw [hpt] at ha
    cases ha
    exact ⟨_, withNewChild_parent s a pt part bytes hlt, rfl, List.prefix_append _ _⟩
  · exact ⟨node, by rw [withNewChild_other s pathtree pt part bytes a halt h, ha], rfl,
      List.prefix_refl _⟩

/-- Crediting a node keeps the store well formed. -/
theorem wellFormed_credit (s : Store) (pathtree bytes : Nat) (pt : PathSize)
    (hpt : s[pathtree]? = some pt) (hwf : wellFormed s = true) :
    wellFormed (s.set pathtree (credit bytes pt)) = true := by
  rw [wellFormed_iff] at hwf ⊢
  intro a node ha c hc
  have hsub := credit_subpaths s pathtree bytes pt hpt a
  rw [ha] at hsub
  cases h : s[a]? with
  | none => simp [h] at hsub
  | some n0 =>
    simp only [h, Option.map_some', Option.some.injEq] at hsub
    have := hwf a n0 h c (hsub ▸ hc)
    simpa using this

/-- Adding a child keeps the store well formed. -/
theorem wellFormed_withNewChild (s : Store) (pathtree bytes : Nat) (pt : PathSize)
    (part : String) (hpt : s[pathtree]? = some pt) (hwf : wellFormed s = true) :
    wellFormed (withNewChild s pathtree pt part bytes) = true := by
  have hlt : pathtree < s.length := (List.getElem?_eq_some.1 hpt).1
  rw [wellFormed_iff] at hwf ⊢
  intro a node ha c hc
  rw [withNewChild_length]
  by_cases h1 : a = pathtree
  · subst h1
    rw [withNewChild_parent s a pt part bytes hlt] at ha
    cases ha
    simp only [List.mem_append, List.mem_cons, List.mem_singleton, List.not_mem_nil,
      or_false, or_self] at hc
    rcases hc with hc | hc
    · exact Nat.lt_succ_of_lt (hwf a pt hpt c hc)
    · omega
  · by_cases h2 : a < s.length
    · rw [withNewChild_other s pathtree pt part bytes a h2 h1] at ha
      exact Nat.lt_succ_of_lt (hwf a node ha c hc)
    · have h3 : a < s.length + 1 := by
        have := (List.getElem?_eq_some.1 ha).1
        rwa [withNewChild_length] at this
      have h4 : a = s.length := by omega
      subst h4
      rw [withNewChild_child] at ha
      cases ha
      simp at hc

/-- On a well-formed store and an allocated `pathtree`, every insertion
returns a store; the result is well formed, keeps every old node at its
address with its name and with its `subpaths` extended at the end only, and
leaves untouched every old node that is not reached from `pathtree` along a
leading part of the non-empty segments. -/
theorem InsertIntoTree_general (parts : List String) (bytes : Nat) :
    ∀ (pathtree : Nat) (s : Store), wellFormed s = true → pathtree < s.length →
      ∃ s', InsertIntoTree parts pathtree bytes s = some s' ∧ wellFormed s' = true ∧
        grows s s' ∧
        ∀ a, a < s.length → (∀ q ∈ (segments parts).inits, nodeAt s pathtree q ≠ some a) →
          s'[a]? = s[a]? := by
  induction parts with
  | nil =>
    intro pathtree s hwf _
    exact ⟨s, rfl, hwf, grows_refl s, fun _ _ _ => rfl⟩
  | cons part rest ih =>
    intro pathtree s hwf hlt
    by_cases hp : part = ""
    · have hseg : segments (part :: rest) = segments rest := by simp [segments, hp]
      obtain ⟨s', h1, h2, h3, h4⟩ := ih pathtree s hwf hlt
      refine ⟨s', by simpa [InsertIntoTree, hp] using h1, h2, h3, ?_⟩
      rw [hseg]
      exact h4
    · have hseg : segments (part :: rest) = part :: segments rest := by simp [segments, hp]
      have hpt : s[pathtree]? = some s[pathtree] := List.getElem?_eq_getElem hlt
      have hkids := (wellFormed_iff s).1 hwf pathtree _ hpt
      have hroot : nodeAt s pathtree [] = some pathtree := by simp [nodeAt, hlt]
      rcases findSubpath_total s part _ hkids with ⟨c, hf, hcm, -⟩ | hf
      · -- the child exists
        have hc : c < (s.set pathtree (credit bytes s[pathtree])).length := by
          simpa using hkids c hcm
        obtain ⟨s', h1, h2, h3, h4⟩ := ih c _ (wellFormed_credit s pathtree bytes _ hpt hwf) hc
        refine ⟨s', ?_, h2, grows_trans (grows_credit s pathtree bytes _ hpt) h3, ?_⟩
        · rw [InsertIntoTree_found part rest pathtree bytes s _ c hp hpt hf, h1]
        · intro a ha hq
          have hane : pathtree ≠ a := by
            intro e
            exact hq [] (by simp) (by rw [hroot, e])
          rw [h4 a (by simpa using ha) ?_, List.getElem?_set_ne hane]
          intro q hqm
          rw [nodeAt_congr _ s (by simp) (credit_pathnode s pathtree bytes _ hpt)
            (credit_subpaths s pathtree bytes _ hpt) q c]
          have := hq (part :: q) (by rw [hseg, List.inits_cons]; simp [hqm])
          simpa [nodeAt, hpt, hf] using this
      · -- a new child is made
        have hn : s.length < (withNewChild s pathtree s[pathtree] part bytes).length := by
          rw [withNewChild_length]; omega
        obtain ⟨s', h1, h2, h3, h4⟩ :=
          ih s.length _ (wellFormed_withNewChild s pathtree bytes _ part hpt hwf) hn
        refine ⟨s', ?_, h2, grows_trans (grows_withNewChild s pathtree bytes _ part hpt) h3, ?_⟩
        · rw [InsertIntoTree_new part rest pathtree bytes s _ hp hpt hf, h1]
        · intro a ha hq
          have hane : a ≠ pathtree := by
            intro e
            exact hq [] (by simp) (by rw [hroot, e])
          rw [h4 a (by rw [withNewChild_length]; omega) ?_,
            withNewChild_other s pathtree _ part bytes a ha hane]
          intro q _
          cases q with
          | nil =>
            simp only [nodeAt, hn, if_true, ne_eq, Option.some.injEq]
            omega
          | cons x more =>
            simp [nodeAt, withNewChild_child, findSubpath]

/-- The names of the children of an old node before an insertion are the
first names of its children after it. -/
theorem childNames_prefix_of_grows (s s' : Store) (hwf : wellFormed s = true)
    (hg : grows s s') (a : Nat) (ha : a < s.length) : childNames s a <+: childNames s' a := by
  have hget : s[a]? = some s[a] := List.getElem?_eq_getElem ha
  obtain ⟨node', hn', -, extra, hsub⟩ := hg.2 a _ hget
  have hkids := (wellFormed_iff s).1 hwf a _ hget
  simp only [childNames, hget, hn', ← hsub, List.filterMap_append]
  have hsame : List.filterMap (fun c => (s[c]?).map PathSize.pathnode) s[a].subpaths =
      List.filterMap (fun c => (s'[c]?).map PathSize.pathnode) s[a].subpaths := by
    apply List.filterMap_congr
    intro c hc
    have hclt : c < s.length := hkids c hc
    have hcget : s[c]? = some s[c] := List.getElem?_eq_getElem hclt
    obtain ⟨ch', hch', hname, -⟩ := hg.2 c _ hcget
    simp [hcget, hch', hname]
  rw [hsame]
  exact List.prefix_append _ _

/-- C17: on a well-formed tree, an insertion returns a tree in which every
node that existed before has, as the first entries of its `subpaths`, the
entries it had before, and as the first names of its children the names it
had before, in the same order. -/
theorem InsertIntoTree_keeps_child_order (parts : List String) (pathtree bytes : Nat)
    (s : Store) (hwf : wellFormed s = true) (hpt : pathtree < s.length) :
    ∃ s', InsertIntoTree parts pathtree bytes s = some s' ∧
      ∀ a, a < s.length →
        childNames s a <+: childNames s' a ∧
        ∃ n n', s[a]? = some n ∧ s'[a]? = some n' ∧ n.subpaths <+: n'.subpaths := by
  obtain ⟨s', h1, -, hg, -⟩ := InsertIntoTree_general parts bytes pathtree s hwf hpt
  refine ⟨s', h1, fun a ha => ⟨childNames_prefix_of_grows s s' hwf hg a ha, ?_⟩⟩
  have hget : s[a]? = some s[a] := List.getElem?_eq_getElem ha
  obtain ⟨node', hn', -, hsub⟩ := hg.2 a _ hget
  exact ⟨_, node', hget, hn', hsub⟩

/-- Witness for C17: inserting `/a/c.js` into the tree that holds
`/a/b.js`. -/
theorem InsertIntoTree_keeps_child_order_witness :
    wellFormed sampleTree = true ∧ 0 < sampleTree.length ∧
    ∃ s', InsertIntoTree ["", "a", "c.js"] 0 7 sampleTree = some s' ∧
      ∀ a, a < sampleTree.length →
        childNames sampleTree a <+: childNames s' a ∧
        ∃ n n', sampleTree[a]? = some n ∧ s'[a]? = some n' ∧ n.subpaths <+: n'.subpaths :=
  ⟨by decide, by decide,
    InsertIntoTree_keeps_child_order ["", "a", "c.js"] 0 7 sampleTree (by decide) (by decide)⟩

/-- C18: on a well-formed tree, an insertion returns a tree in which every
node that existed before and is not the node reached from `pathtree` along a
leading part of the inserted non-empty segments is as it was: same
totalbytes, lastbytes, totalhits and `subpaths`.  In particular a node that is
reached along the segment path `q` only, where `q` is not a leading part of
the inserted segments, is as it was. -/
theorem InsertIntoTree_frame (parts : List String) (pathtree bytes : Nat)
    (s : Store) (hwf : wellFormed s = true) (hpt : pathtree < s.length) :
    ∃ s', InsertIntoTree parts pathtree bytes s = some s' ∧
      (∀ a, a < s.length →
        (∀ q, q <+: parts.filter (fun p => p ≠ "") → nodeAt s pathtree q ≠ some a) →
        s'[a]? = s[a]?) ∧
      (∀ a q, nodeAt s pathtree q = some a →
        (∀ q', nodeAt s pathtree q' = some a → q' = q) →
        ¬ q <+: parts.filter (fun p => p ≠ "") → s'[a]? = s[a]?) := by
  obtain ⟨s', h1, -, -, hf⟩ := InsertIntoTree_general parts bytes pathtree s hwf hpt
  have hframe : ∀ a, a < s.length →
      (∀ q, q <+: parts.filter (fun p => p ≠ "") → nodeAt s pathtree q ≠ some a) →
      s'[a]? = s[a]? := by
    intro a ha hq
    exact hf a ha (fun q hqm => hq q ((List.mem_inits q _).1 hqm))
  refine ⟨s', h1, hframe, ?_⟩
  intro a q hqa huniq hnp
  by_cases ha : a < s.length
  · apply hframe a ha
    intro q' hq' hreach
    exact hnp (huniq q' hreach ▸ hq')
  · exfalso
    -- a node reached by a walk is allocated
    have : ∀ (q : List String) (b : Nat), nodeAt s b q = some a → a < s.length := by
      intro q
      induction q with
      | nil =>
        intro b hb
        simp only [nodeAt] at hb
        split at hb
        · cases hb; assumption
        · cases hb
      | cons seg more ih =>
        intro b hb
        simp only [nodeAt] at hb
        split at hb
        · cases hb
        · split at hb
          · exact ih _ hb
          · cases hb
    exact ha (this q pathtree hqa)

/-- Witness for C18: inserting `/z.js` into the tree that holds `/a/b.js`. -/
theorem InsertIntoTree_frame_witness :
    wellFormed sampleTree = true ∧ 0 < sampleTree.length ∧
    ∃ s', InsertIntoTree ["", "z.js"] 0 7 sampleTree = some s' ∧
      (∀ a, a < sampleTree.length →
        (∀ q, q <+: ["", "z.js"].filter (fun p => p ≠ "") → nodeAt sampleTree 0 q ≠ some a) →
        s'[a]? = sampleTree[a]?) ∧
      (∀ a q, nodeAt sampleTree 0 q = some a →
        (∀ q', nodeAt sampleTree 0 q' = some a → q' = q) →
        ¬ q <+: ["", "z.js"].filter (fun p => p ≠ "") → s'[a]? = sampleTree[a]?) :=
  ⟨by decide, by decide,
    InsertIntoTree_frame ["", "z.js"] 0 7 sampleTree (by decide) (by decide)⟩

/-! ## The same path inserted again and again -/

/-- The nodes of a path start with the node named `name`. -/
theorem chainTail_head (L Bm Hm b1 i : Nat) (name : String) (rest : List String) :
    ∃ hd tl, chainTail L Bm Hm b1 i name rest = hd :: tl ∧ hd.pathnode = name := by
  cases rest with
  | nil => exact ⟨_, _, rfl, rfl⟩
  | cons x rest => exact ⟨_, _, rfl, rfl⟩

/-- One step down an existing path: the node at `i` holds `i + 1` twice and
the node at `i + 1` is named `x`. -/
theorem InsertIntoTree_down (x : String) (rest : List String) (i c : Nat)
    (pre : List PathSize) (N hd : PathSize) (tl : List PathSize) (hi : pre.length = i)
    (hN : N.subpaths = [i + 1, i + 1]) (hname : hd.pathnode = x) (hx : x ≠ "") :
    InsertIntoTree (x :: rest) i c (pre ++ N :: hd :: tl) =
      InsertIntoTree rest (i + 1) c ((pre ++ [credit c N]) ++ hd :: tl) := by
  have hpt : (pre ++ N :: hd :: tl)[i]? = some N := by
    rw [List.getElem?_append_right (by omega)]
    simp [hi]
  have hch : (pre ++ N :: hd :: tl)[i + 1]? = some hd := by
    rw [List.getElem?_append_right (by omega)]
    simp [hi]
  have hf : findSubpath (pre ++ N :: hd :: tl) x N.subpaths = some (some (i + 1)) := by
    simp [hN, findSubpath, hch, hname]
  rw [InsertIntoTree_found x rest i c _ N (i + 1) hx hpt hf]
  congr 1
  subst hi
  simp

/-- Inserting a path that is there credits every node above the last one. -/
theorem InsertIntoTree_chainTail (L Bm Hm b1 c : Nat) (rest : List String) :
    ∀ (i : Nat) (name : String) (pre : List PathSize), pre.length = i →
      (∀ y ∈ rest, y ≠ "") →
      InsertIntoTree rest i c (pre ++ chainTail L Bm Hm b1 i name rest) =
        some (pre ++ chainTail c ((Bm + c) % u64) ((Hm + 1) % u64) b1 i name rest) := by
  induction rest with
  | nil => intro i name pre _ _; rfl
  | cons x rest ih =>
    intro i name pre hi hne
    have hx : x ≠ "" := hne x (List.mem_cons_self _ _)
    have hrest : ∀ y ∈ rest, y ≠ "" := fun y hy => hne y (List.mem_cons_of_mem _ hy)
    obtain ⟨hd, tl, hct, hname⟩ := chainTail_head L Bm Hm b1 (i + 1) x rest
    have hstep := InsertIntoTree_down x rest i c pre
      { subpaths := [i + 1, i + 1], pathnode := name, lastbytes := L, totalbytes := Bm,
        totalhits := Hm } hd tl hi rfl hname hx
    simp only [chainTail]
    rw [hct, hstep, ← hct, ih (i + 1) x _ (by simp [hi]) hrest]
    simp [credit]

/-- Inserting the path of a chain store again credits the root and every node
above the last one. -/
theorem InsertIntoTree_chainStore (L Br Hr Bm Hm b1 c : Nat) (x : String) (rest : List String)
    (hx : x ≠ "") (hrest : ∀ y ∈ rest, y ≠ "") :
    InsertIntoTree (x :: rest) 0 c (chainStore L Br Hr Bm Hm b1 x rest) =
      some (chainStore c ((Br + c) % u64) ((Hr + 1) % u64) ((Bm + c) % u64) ((Hm + 1) % u64)
        b1 x rest) := by
  obtain ⟨hd, tl, hct, hname⟩ := chainTail_head L Bm Hm b1 1 x rest
  have hstep := InsertIntoTree_down x rest 0 c []
    { subpaths := [1, 1], pathnode := "/", lastbytes := L, totalbytes := Br, totalhits := Hr }
    hd tl rfl rfl hname hx
  simp only [chainStore]
  simp only [List.nil_append] at hstep
  rw [hct, hstep, ← hct,
    InsertIntoTree_chainTail L Bm Hm b1 c rest 1 x
      [credit c { subpaths := [1, 1], pathnode := "/", lastbytes := L, totalbytes := Br,
                  totalhits := Hr }] rfl hrest]
  simp [credit]

/-- Inserting a new path below the last node of the store makes the chain of
its nodes. -/
theorem InsertIntoTree_fresh_chain (b : Nat) (rest : List String) :
    ∀ (x : String) (i : Nat) (pre : List PathSize) (N : PathSize), pre.length = i →
      N.subpaths = [] → x ≠ "" → (∀ y ∈ rest, y ≠ "") →
      InsertIntoTree (x :: rest) i b (pre ++ [N]) =
        some (pre ++ { N with subpaths := [i + 1, i + 1] } :: chainTail 0 b 1 b (i + 1) x rest) := by
  induction rest with
  | nil =>
    intro x i pre N hi hN hx _
    have hpt : (pre ++ [N])[i]? = some N := by
      rw [List.getElem?_append_right (by omega)]
      simp [hi]
    have hf : findSubpath (pre ++ [N]) x N.subpaths = some none := by simp [hN, findSubpath]
    rw [InsertIntoTree_new x [] i b _ N hx hpt hf]
    subst hi
    simp [InsertIntoTree, withNewChild, chainTail, hN]
  | cons y rest ih =>
    intro x i pre N hi hN hx hne
    have hy : y ≠ "" := hne y (List.mem_cons_self _ _)
    have hrest : ∀ z ∈ rest, z ≠ "" := fun z hz => hne z (List.mem_cons_of_mem _ hz)
    have hpt : (pre ++ [N])[i]? = some N := by
      rw [List.getElem?_append_right (by omega)]
      simp [hi]
    have hf : findSubpath (pre ++ [N]) x N.subpaths = some none := by simp [hN, findSubpath]
    rw [InsertIntoTree_new x (y :: rest) i b _ N hx hpt hf]
    have hstore : withNewChild (pre ++ [N]) i N x b =
        (pre ++ [{ N with subpaths := [i + 1, i + 1] }]) ++
          [{ subpaths := [], pathnode := x, lastbytes := 0, totalbytes := b, totalhits := 1 }] := by
      subst hi
      simp [withNewChild, hN]
    have hlen : (pre ++ [N]).length = i + 1 := by simp [hi]
    rw [hstore, hlen, ih y (i + 1) _ _ (by simp [hi]) rfl hy hrest]
    simp [chainTail]

/-- The first insertion of a path into a fresh root makes its chain store. -/
theorem InsertIntoTree_freshRoot (b : Nat) (x : String) (rest : List String)
    (hx : x ≠ "") (hrest : ∀ y ∈ rest, y ≠ "") :
    InsertIntoTree (x :: rest) 0 b freshRoot = some (chainStore 0 0 0 b 1 b x rest) :=
  InsertIntoTree_fresh_chain b rest x 0 []
    { subpaths := [], pathnode := "/", lastbytes := 0, totalbytes := 0, totalhits := 0 }
    rfl rfl hx hrest

/-- A run of insertions ignores the empty parts of the path. -/
theorem insertAll_segments (parts : List String) (pathtree : Nat) (cs : List Nat) :
    ∀ s : Store, insertAll (cs.map fun c => (parts, c)) pathtree s =
      insertAll (cs.map fun c => (segments parts, c)) pathtree s := by
  induction cs with
  | nil => intro s; rfl
  | cons c cs ih =>
    intro s
    simp only [List.map_cons, insertAll, ← InsertIntoTree_segments parts c pathtree s]
    cases InsertIntoTree parts pathtree c s with
    | none => rfl
    | some s1 => exact ih s1

/-- Further insertions of the path of a chain store add their bytes and one
hit each, modulo `2 ^ 64`, to the root and to every node above the last. -/
theorem insertAll_chainStore (b1 : Nat) (x : String) (rest : List String)
    (hx : x ≠ "") (hrest : ∀ y ∈ rest, y ≠ "") (cs : List Nat) :
    ∀ (L Br Hr Bm Hm : Nat), Br < u64 → Hr < u64 → Bm < u64 → Hm < u64 →
      ∃ L', insertAll (cs.map fun c => (x :: rest, c)) 0 (chainStore L Br Hr Bm Hm b1 x rest) =
        some (chainStore L' ((Br + cs.sum) % u64) ((Hr + cs.length) % u64)
          ((Bm + cs.sum) % u64) ((Hm + cs.length) % u64) b1 x rest) := by
  have hpos : 0 < u64 := by decide
  induction cs with
  | nil =>
    intro L Br Hr Bm Hm h1 h2 h3 h4
    refine ⟨L, ?_⟩
    simp [insertAll, Nat.mod_eq_of_lt h1, Nat.mod_eq_of_lt h2, Nat.mod_eq_of_lt h3,
      Nat.mod_eq_of_lt h4]
  | cons c cs ih =>
    intro L Br Hr Bm Hm _ _ _ _
    obtain ⟨L', hL'⟩ := ih c ((Br + c) % u64) ((Hr + 1) % u64) ((Bm + c) % u64)
      ((Hm + 1) % u64) (Nat.mod_lt _ hpos) (Nat.mod_lt _ hpos) (Nat.mod_lt _ hpos)
      (Nat.mod_lt _ hpos)
    refine ⟨L', ?_⟩
    simp only [List.map_cons, insertAll,
      InsertIntoTree_chainStore L Br Hr Bm Hm b1 c x rest hx hrest, hL', List.sum_cons,
      List.length_cons, Nat.mod_add_mod]
    have e1 : Br + c + cs.sum = Br + (c + cs.sum) := by omega
    have e2 : Hr + 1 + cs.length = Hr + (cs.length + 1) := by omega
    have e3 : Bm + c + cs.sum = Bm + (c + cs.sum) := by omega
    have e4 : Hm + 1 + cs.length = Hm + (cs.length + 1) := by omega
    rw [e1, e2, e3, e4]

/-- The last node of a path. -/
theorem chainTail_last (L Bm Hm b1 : Nat) (rest : List String) :
    ∀ (i : Nat) (name : String),
      ∃ node, (chainTail L Bm Hm b1 i name rest)[rest.length]? = some node ∧
        node.totalhits = 1 ∧ node.totalbytes = b1 ∧ node.lastbytes = 0 := by
  induction rest with
  | nil => intro i name; exact ⟨_, rfl, rfl, rfl, rfl⟩
  | cons x rest ih =>
    intro i name
    obtain ⟨node, h, hrest⟩ := ih (i + 1) x
    exact ⟨node, by simpa [chainTail] using h, hrest⟩

/-- The nodes of a path above the last. -/
theorem chainTail_mid (L Bm Hm b1 : Nat) (rest : List String) :
    ∀ (i : Nat) (name : String) (j : Nat), j < rest.length →
      ∃ node, (chainTail L Bm Hm b1 i name rest)[j]? = some node ∧
        node.totalhits = Hm ∧ node.totalbytes = Bm := by
  induction rest with
  | nil => intro i name j hj; simp at hj
  | cons x rest ih =>
    intro i name j hj
    cases j with
    | zero =>
      exact ⟨{ subpaths := [i + 1, i + 1], pathnode := name, lastbytes := L, totalbytes := Bm,
               totalhits := Hm }, by simp [chainTail], rfl, rfl⟩
    | succ j =>
      obtain ⟨node, h, hrest⟩ := ih (i + 1) x j (by simpa using hj)
      exact ⟨node, by simpa [chainTail] using h, hrest⟩

/-- The length of the nodes of a path. -/
theorem chainTail_length (L Bm Hm b1 : Nat) (rest : List String) :
    ∀ (i : Nat) (name : String), (chainTail L Bm Hm b1 i name rest).length = rest.length + 1 := by
  induction rest with
  | nil => intro i name; rfl
  | cons x rest ih => intro i name; simp [chainTail, ih]

/-- Walking a leading part of the path from the node at `i` ends as many
addresses further on. -/
theorem nodeAt_chainTail (L Bm Hm b1 : Nat) (rest : List String) :
    ∀ (i : Nat) (name : String) (pre : List PathSize) (q : List String), pre.length = i →
      q <+: rest → nodeAt (pre ++ chainTail L Bm Hm b1 i name rest) i q = some (i + q.length) := by
  induction rest with
  | nil =>
    intro i name pre q hi hq
    have hq0 : q = [] := List.prefix_nil.1 hq
    subst hq0
    simp [nodeAt, chainTail, hi]
  | cons x rest ih =>
    intro i name pre q hi hq
    cases q with
    | nil => simp [nodeAt, chainTail, hi]
    | cons y q =>
      obtain ⟨hxy, hq'⟩ := List.cons_prefix_cons.1 hq
      subst hxy
      obtain ⟨hd, tl, hct, hname⟩ := chainTail_head L Bm Hm b1 (i + 1) y rest
      have hpt : (pre ++ chainTail L Bm Hm b1 i name (y :: rest))[i]? =
          some { subpaths := [i + 1, i + 1], pathnode := name, lastbytes := L, totalbytes := Bm,
                 totalhits := Hm } := by
        rw [List.getElem?_append_right (by omega)]
        simp [hi, chainTail]
      have hch : (pre ++ chainTail L Bm Hm b1 i name (y :: rest))[i + 1]? = some hd := by
        rw [List.getElem?_append_right (by omega)]
        simp [hi, chainTail, hct]
      have hstore : pre ++ chainTail L Bm Hm b1 i name (y :: rest) =
          (pre ++ [{ subpaths := [i + 1, i + 1], pathnode := name, lastbytes := L,
                     totalbytes := Bm, totalhits := Hm }]) ++
            chainTail L Bm Hm b1 (i + 1) y rest := by
        simp [chainTail]
      have hwalk := ih (i + 1) y
        (pre ++ [{ subpaths := [i + 1, i + 1], pathnode := name, lastbytes := L,
                   totalbytes := Bm, totalhits := Hm }]) q (by simp [hi]) hq'
      rw [← hstore] at hwalk
      simp only [nodeAt, hpt, findSubpath, hch, hname, if_true, hwalk, List.length_cons]
      congr 1
      omega

/-- C19: inserting a path with at least one non-empty segment into a fresh
root, first with `b1` bytes and then with the byte counts `cs` (so `k` is
`cs.length + 1`), leaves the final node with totalhits 1, totalbytes `b1` and
lastbytes 0, every node strictly between the root and the final node with
totalhits `k` and totalbytes `b1` plus the sum of `cs`, and the root with
totalhits `k - 1` and totalbytes the sum of `cs`, all modulo `2 ^ 64`. -/
theorem insert_same_path_repeatedly (parts : List String) (b1 : Nat) (cs : List Nat)
    (hn : parts.filter (fun p => p ≠ "") ≠ []) (hb : b1 < 2 ^ 64) :
    ∃ s, insertAll ((parts, b1) :: cs.map fun c => (parts, c)) 0 freshRoot = some s ∧
      (∃ a node, nodeAt s 0 (parts.filter fun p => p ≠ "") = some a ∧ s[a]? = some node ∧
        node.totalhits = 1 ∧ node.totalbytes = b1 ∧ node.lastbytes = 0) ∧
      (∀ q, q <+: parts.filter (fun p => p ≠ "") → q ≠ [] → q ≠ parts.filter (fun p => p ≠ "") →
        ∃ a node, nodeAt s 0 q = some a ∧ s[a]? = some node ∧
          node.totalhits = (cs.length + 1) % 2 ^ 64 ∧
          node.totalbytes = (b1 + cs.sum) % 2 ^ 64) ∧
      (∃ node, s[0]? = some node ∧ node.totalhits = cs.length % 2 ^ 64 ∧
        node.totalbytes = cs.sum % 2 ^ 64) := by
  have hsegs : ∀ y ∈ segments parts, y ≠ "" := by
    intro y hy
    simpa using (List.mem_filter.1 hy).2
  change segments parts ≠ [] at hn
  show ∃ s, insertAll ((parts, b1) :: cs.map fun c => (parts, c)) 0 freshRoot = some s ∧
      (∃ a node, nodeAt s 0 (segments parts) = some a ∧ s[a]? = some node ∧
        node.totalhits = 1 ∧ node.totalbytes = b1 ∧ node.lastbytes = 0) ∧
      (∀ q, q <+: segments parts → q ≠ [] → q ≠ segments parts →
        ∃ a node, nodeAt s 0 q = some a ∧ s[a]? = some node ∧
          node.totalhits = (cs.length + 1) % 2 ^ 64 ∧
          node.totalbytes = (b1 + cs.sum) % 2 ^ 64) ∧
      (∃ node, s[0]? = some node ∧ node.totalhits = cs.length % 2 ^ 64 ∧
        node.totalbytes = cs.sum % 2 ^ 64)
  cases hseg : segments parts with
  | nil => exact absurd hseg hn
  | cons x rest =>
    rw [hseg] at hsegs
    have hx : x ≠ "" := hsegs x (List.mem_cons_self _ _)
    have hrest : ∀ y ∈ rest, y ≠ "" := fun y hy => hsegs y (List.mem_cons_of_mem _ hy)
    have hfirst : InsertIntoTree parts 0 b1 freshRoot = some (chainStore 0 0 0 b1 1 b1 x rest) := by
      rw [InsertIntoTree_segments, hseg]
      exact InsertIntoTree_freshRoot b1 x rest hx hrest
    obtain ⟨L', hL'⟩ := insertAll_chainStore b1 x rest hx hrest cs 0 0 0 b1 1
      (by decide) (by decide) hb (by decide)
    refine ⟨chainStore L' ((0 + cs.sum) % u64) ((0 + cs.length) % u64) ((b1 + cs.sum) % u64)
      ((1 + cs.length) % u64) b1 x rest, ?_, ?_, ?_, ?_⟩
    · simp only [insertAll, hfirst]
      rw [insertAll_segments, hseg]
      exact hL'
    · obtain ⟨node, hnode, h1, h2, h3⟩ :=
        chainTail_last L' ((b1 + cs.sum) % u64) ((1 + cs.length) % u64) b1 rest 1 x
      refine ⟨1 + rest.length, node, ?_, ?_, h1, h2, h3⟩
      · have hw := nodeAt_chainTail L' ((b1 + cs.sum) % u64) ((1 + cs.length) % u64) b1 rest 1 x
          [{ subpaths := [1, 1], pathnode := "/", lastbytes := L',
             totalbytes := (0 + cs.sum) % u64, totalhits := (0 + cs.length) % u64 }]
          rest rfl (List.prefix_refl _)
        obtain ⟨hd, tl, hct, hname⟩ :=
          chainTail_head L' ((b1 + cs.sum) % u64) ((1 + cs.length) % u64) b1 1 x rest
        simp only [chainStore, nodeAt, List.getElem?_cons_zero, findSubpath, hct,
          List.getElem?_cons_succ, hname, if_true]
        rw [← hct]
        exact hw
      · simpa [chainStore, Nat.add_comm] using hnode
    · intro q hq hq0 hqne
      cases q with
      | nil => exact absurd rfl hq0
      | cons y q =>
        obtain ⟨hxy, hq'⟩ := List.cons_prefix_cons.1 hq
        subst hxy
        have hlt : q.length < rest.length := by
          rcases Nat.lt_or_ge q.length rest.length with h | h
          · exact h
          · exfalso
            apply hqne
            rw [List.IsPrefix.eq_of_length_le hq' h]
        obtain ⟨node, hnode, h1, h2⟩ :=
          chainTail_mid L' ((b1 + cs.sum) % u64) ((1 + cs.length) % u64) b1 rest 1 y q.length hlt
        refine ⟨1 + q.length, node, ?_, ?_, ?_, ?_⟩
        · have hw := nodeAt_chainTail L' ((b1 + cs.sum) % u64) ((1 + cs.length) % u64) b1 rest 1 y
            [{ subpaths := [1, 1], pathnode := "/", lastbytes := L',
               totalbytes := (0 + cs.sum) % u64, totalhits := (0 + cs.length) % u64 }]
            q rfl hq'
          obtain ⟨hd, tl, hct, hname⟩ :=
            chainTail_head L' ((b1 + cs.sum) % u64) ((1 + cs.length) % u64) b1 1 y rest
          simp only [chainStore, nodeAt, List.getElem?_cons_zero, findSubpath, hct,
            List.getElem?_cons_succ, hname, if_true]
          rw [← hct]
          exact hw
        · simpa [chainStore, Nat.add_comm] using hnode
        · rw [h1, Nat.add_comm]; rfl
        · rw [h2]; rfl
    · exact ⟨{ subpaths := [1, 1], pathnode := "/", lastbytes := L',
               totalbytes := (0 + cs.sum) % u64, totalhits := (0 + cs.length) % u64 },
        by simp [chainStore], by simp [u64], by simp [u64]⟩

/-- Witness for C19: the path `/a/b/c.js` inserted with 100, 200 and 50
bytes. -/
theorem insert_same_path_repeatedly_witness :
    ["", "a", "b", "c.js"].filter (fun p => p ≠ "") ≠ [] ∧ 100 < 2 ^ 64 ∧
    ∃ s, insertAll ((["", "a", "b", "c.js"], 100) ::
        [200, 50].map fun c => (["", "a", "b", "c.js"], c)) 0 freshRoot = some s ∧
      (∃ a node, nodeAt s 0 (["", "a", "b", "c.js"].filter fun p => p ≠ "") = some a ∧
        s[a]? = some node ∧ node.totalhits = 1 ∧ node.totalbytes = 100 ∧ node.lastbytes = 0) ∧
      (∀ q, q <+: ["", "a", "b", "c.js"].filter (fun p => p ≠ "") → q ≠ [] →
        q ≠ ["", "a", "b", "c.js"].filter (fun p => p ≠ "") →
        ∃ a node, nodeAt s 0 q = some a ∧ s[a]? = some node ∧
          node.totalhits = ([200, 50].length + 1) % 2 ^ 64 ∧
          node.totalbytes = (100 + [200, 50].sum) % 2 ^ 64) ∧
      (∃ node, s[0]? = some node ∧ node.totalhits = [200, 50].length % 2 ^ 64 ∧
        node.totalbytes = [200, 50].sum % 2 ^ 64) :=
  ⟨by decide, by decide,
    insert_same_path_repeatedly ["", "a", "b", "c.js"] 100 [200, 50] (by decide) (by decide)⟩

/-! ## The pattern on the line of the scenario -/

set_option maxRecDepth 100000 in
set_option maxHeartbeats 4000000 in
/-- C14: on the line of the scenario the pattern of `CreateApacheRegex`
matches with captures 203.0.113.5, the date, GET, the URL, HTTP/1.1, an empty
sixth group, 200, 5120, `-` and curl/7.64, and the parser returns the record
with URL `/assets/img/logo.png`, status 200, 5120 bytes, request GET and
protocol HTTP/1.1. -/
theorem parse_logo_line :
    FindStringSubmatch 400 CreateApacheRegex 10 logoLine =
      some [logoLine, "203.0.113.5", "10/Oct/2020:13:55:36 -0700", "GET",
            "/assets/img/logo.png", "HTTP/1.1", "", "200", "5120", "-", "curl/7.64"] ∧
    parseApacheLog (fun l => (FindStringSubmatch 400 CreateApacheRegex 10 l).getD []) logoLine =
      some { RemoteHost := "203.0.113.5", Time := "10/Oct/2020:13:55:36 -0700",
             Request := "GET", Protocol := "HTTP/1.1", Status := 200, Bytes := 5120,
             Referer := "-", UserAgent := "curl/7.64", URL := "/assets/img/logo.png" } := by
  decide

end CdnScan
